import Mathlib

/-!
# Verification of `scripts/rewrite-import-statements-for-gss.js`

A shallow embedding of the import rewriter: JavaScript strings are lists of
characters, exceptions are values of `Except`, and the Node `path` functions
the script calls (POSIX flavour) are modelled on path segments.
-/

set_option autoImplicit false

namespace GssRewrite

/-- JavaScript strings, as lists of characters. -/
abbrev Str := List Char

/-- Exceptions the script can end with. -/
inductive JsError where
  | typeError
  | parseError
  | ioError
  deriving DecidableEq, Repr

deriving instance DecidableEq for Except

/-! ## String primitives used by the script -/

/-- The namespace marker literal `'@material'` of lines 108 and 120. -/
def atMaterial : Str := "@material".toList

/-- `s.split('/')`: the list of pieces between slashes, never empty. -/
def splitSlash : Str → List Str
  | [] => [[]]
  | c :: cs =>
    if c = '/' then [] :: splitSlash cs
    else
      match splitSlash cs with
      | [] => [[c]]
      | s :: ss => (c :: s) :: ss

/-- `parts.join('/')`. -/
def joinSlash : List Str → Str
  | [] => []
  | [s] => s
  | s :: t :: ss => s ++ '/' :: joinSlash (t :: ss)

/-- The character class `[a-z]` of the regular expression on line 111. -/
def isLowerAZ (c : Char) : Bool := decide ('a' ≤ c) && decide (c ≤ 'z')

/-- The global regular-expression replace of line 111 (pattern: a hyphen, then
one character of `[a-z]`, captured): scanning left to right, a hyphen followed
by a lowercase letter is replaced by that letter in upper case; every other
character is copied. -/
def kebabToCamel : Str → Str
  | [] => []
  | [c] => [c]
  | c :: d :: rest =>
    if c = '-' ∧ isLowerAZ d = true then d.toUpper :: kebabToCamel rest
    else c :: kebabToCamel (d :: rest)

/-- First occurrence of `pat` in a string: the text before it and the text
after it (`String.prototype.indexOf` as used by `replace`). -/
def findSub (pat : Str) : Str → Option (Str × Str)
  | [] => if pat = [] then some ([], []) else none
  | c :: cs =>
    if pat.isPrefixOf (c :: cs) = true then some ([], (c :: cs).drop pat.length)
    else (findSub pat cs).map fun p => (c :: p.1, p.2)

/-- The replacement-text expansion of `String.prototype.replace` for a string
pattern (no capture groups): `$$` is a dollar sign, `$&` the matched text,
dollar-backquote the text before the match and dollar-quote the text after it. -/
def getSubstitution (matched before after : Str) : Str → Str
  | [] => []
  | [c] => [c]
  | c :: d :: rest =>
    if c = '$' then
      if d = '$' then '$' :: getSubstitution matched before after rest
      else if d = '&' then matched ++ getSubstitution matched before after rest
      else if d = Char.ofNat 96 then before ++ getSubstitution matched before after rest
      else if d = Char.ofNat 39 then after ++ getSubstitution matched before after rest
      else c :: getSubstitution matched before after (d :: rest)
    else c :: getSubstitution matched before after (d :: rest)

/-- `s.replace(pat, replacement)` with a string pattern: only the first
occurrence is replaced. -/
def replaceFirst (pat replacement s : Str) : Str :=
  match findSub pat s with
  | none => s
  | some (before, after) => before ++ getSubstitution pat before after replacement ++ after

/-! ## Node `path` (POSIX)

The script calls `path.isAbsolute`, `path.dirname`, `path.resolve` and
`path.relative` of the Node standard library, which is not part of the
repository. They are modelled here after Node's POSIX implementation:
`isAbsolute` and `dirname` character by character, `resolve` and `relative` on
the `/`-separated segments of the paths. `process.cwd()`, which `resolve` reads
when no argument is absolute, is the explicit parameter `cwd`. -/

/-- `path.isAbsolute(p)`. -/
def isAbsolute (p : Str) : Bool :=
  match p with
  | [] => false
  | c :: _ => decide (c = '/')

/-- `path.dirname(p)`: trailing slashes are skipped, then the text before the last
slash is returned; the first character is never cut off. -/
def dirname (p : Str) : Str :=
  match p with
  | [] => ".".toList
  | c :: body =>
    let r1 := body.reverse.dropWhile (fun x => decide (x = '/'))
    match r1.dropWhile (fun x => !decide (x = '/')) with
    | [] => if c = '/' then "/".toList else ".".toList
    | _ :: r3 =>
      if c = '/' ∧ r3 = [] then "//".toList else c :: r3.reverse

/-- One step of the segment normalisation shared by `path.resolve` and
`path.normalize`: empty and `.` segments are dropped, `..` removes the last
kept segment (or is kept when the path may climb above its start). -/
def normStep (allowAboveRoot : Bool) (res : List Str) (seg : Str) : List Str :=
  if seg = [] ∨ seg = ".".toList then res
  else if seg = "..".toList then
    if res ≠ [] ∧ res.getLast? ≠ some "..".toList then res.dropLast
    else if allowAboveRoot = true then res ++ ["..".toList] else res
  else res ++ [seg]

/-- Normalisation of a list of segments, starting from kept segments `res`. -/
def normalizeSegs (allowAboveRoot : Bool) (res : List Str) : List Str → List Str
  | [] => res
  | seg :: segs => normalizeSegs allowAboveRoot (normStep allowAboveRoot res seg) segs

/-- The right-to-left loop of `path.resolve`: arguments are prepended until an
absolute one is met; empty arguments are skipped. -/
def resolveArgs : List Str → Str × Bool
  | [] => ([], false)
  | p :: ps =>
    let r := resolveArgs ps
    if r.2 = true then r
    else if p = [] then r
    else (p ++ '/' :: r.1, isAbsolute p)

/-- `path.resolve(...paths)`, with the working directory `cwd` as the last
resort. -/
def resolve (cwd : Str) (paths : List Str) : Str :=
  let r := resolveArgs (cwd :: paths)
  let segs := normalizeSegs (!r.2) [] (splitSlash r.1)
  if r.2 = true then '/' :: joinSlash segs
  else if segs = [] then ".".toList else joinSlash segs

/-- The segments of a resolved path (its first character, the root slash, is
skipped as in `path.relative`). -/
def pathSegments (p : Str) : List Str :=
  (splitSlash (p.drop 1)).filter (fun s => decide (s ≠ []))

/-- Removes the longest common prefix of two segment lists. -/
def dropCommon : List Str → List Str → List Str × List Str
  | a :: as, b :: bs => if a = b then dropCommon as bs else (a :: as, b :: bs)
  | as, bs => (as, bs)

/-- `path.relative(from, to)`: both paths are resolved, one `..` is emitted for
each segment of `from` below the common ancestor, followed by the segments of
`to` below it. -/
def relative (cwd frm dest : Str) : Str :=
  if frm = dest then []
  else
    let f := resolve cwd [frm]
    let t := resolve cwd [dest]
    if f = t then []
    else
      let d := dropCommon (pathSegments f) (pathSegments t)
      joinSlash (List.replicate d.1.length "..".toList ++ d.2)

/-! ## `rewriteImportDeclaration` (lines 106-124) -/

/-- Lines 107-115: the import source after the `@material` prefix rewrite.
`pathParts[1]` is `undefined` when the source is exactly `@material`, and the
call of `replace` on it raises a `TypeError`. -/
def rewrittenImportSource (importSource rootDir : Str) : Except JsError Str :=
  let pathParts := splitSlash importSource
  if pathParts.head? = some atMaterial then
    match pathParts.get? 1 with
    | none => .error .typeError
    | some modName =>
      let atMaterialReplacementPath := rootDir ++ '/' :: kebabToCamel modName
      .ok (joinSlash (atMaterialReplacementPath :: pathParts.drop 2))
  else .ok importSource

/-- Line 120: the absolute candidate path. -/
def pathToImport (importSource rootDir : Str) : Str :=
  replaceFirst atMaterial rootDir importSource

/-- Lines 117-123: closure module-root resolution of an import source. -/
def resolveImportSource (cwd importSource srcFile rootDir : Str) : Str :=
  if isAbsolute importSource = true then
    relative cwd (dirname srcFile) (pathToImport importSource rootDir)
  else importSource

/-- `rewriteImportDeclaration(importSource, srcFile, rootDir)`; `cwd` is the
working directory that `path.relative` consults for relative arguments. -/
def rewriteImportDeclaration (cwd importSource srcFile rootDir : Str) : Except JsError Str :=
  match rewrittenImportSource importSource rootDir with
  | .error e => .error e
  | .ok s => .ok (resolveImportSource cwd s srcFile rootDir)

/-! ## Vocabulary of the specification -/

/-- Kebab-case module names, as the spec words them: non-empty words of
lowercase letters. -/
def KebabWords (ws : List Str) : Prop :=
  ws ≠ [] ∧ ∀ w ∈ ws, w ≠ [] ∧ ∀ c ∈ w, isLowerAZ c = true

/-- Words joined by single hyphens. -/
def joinHyphen : List Str → Str
  | [] => []
  | [w] => w
  | w :: v :: ws => w ++ '-' :: joinHyphen (v :: ws)

/-- A word with its first letter in upper case. -/
def capitalize : Str → Str
  | [] => []
  | c :: cs => c.toUpper :: cs

/-- The camelCase equivalent of a list of words: the first word as it is, every
later word capitalised, nothing in between. -/
def camelCase : List Str → Str
  | [] => []
  | w :: ws => w ++ (ws.map capitalize).flatten

/-- A segment that normalisation keeps as it is: non-empty, not `.`, not `..`,
and free of slashes. -/
def CleanSeg (s : Str) : Prop :=
  s ≠ [] ∧ s ≠ ".".toList ∧ s ≠ "..".toList ∧ '/' ∉ s

/-- The candidate path as the specification words it: every `/`-separated
segment equal to the marker is replaced by `rootDir`, every other segment is
kept. -/
def candidateBySegments (importSource rootDir : Str) : Str :=
  joinSlash ((splitSlash importSource).map fun seg => if seg = atMaterial then rootDir else seg)

/-- The module-name conversion as the specification words it, character by
character: a hyphen immediately followed by a lowercase letter is removed, a
lowercase letter immediately preceded by such a hyphen is put in upper case,
every other character is kept. `prev` is the character before the text. -/
def convertBySpec (prev : Option Char) : Str → Str
  | [] => []
  | c :: cs =>
    (if c = '-' ∧ (cs.head?.map isLowerAZ) = some true then []
      else if prev = some '-' ∧ isLowerAZ c = true then [c.toUpper]
      else [c]) ++ convertBySpec (some c) cs

/-! ## Syntax trees (`scss-parser`) and the tree walker of `transform`

The parser `scss-parser` and the query helper `query-ast` are external
libraries. A tree is a node `{type, value}`; the selection
`$('atrule').has('atkeyword').find('string_double')` is the set of nodes of type
`string_double` that lie below an `atrule` node having a descendant of type
`atkeyword`, and `replace` calls its callback once for each selected node. -/

/-- A node `{type, value}` of the syntax tree: the value of a token is its text,
the value of a composite node is the array of its children. -/
inductive Node where
  | leaf (type : Str) (value : Str)
  | branch (type : Str) (children : List Node)

/-- The `type` field of a node. -/
def Node.type : Node → Str
  | .leaf t _ => t
  | .branch t _ => t

/-- The children of a node (none for a token). -/
def Node.children : Node → List Node
  | .leaf _ _ => []
  | .branch _ cs => cs

/-- The node reached from `n` by following child indices. -/
def nodeAt : Node → List Nat → Option Node
  | n, [] => some n
  | n, i :: is =>
    match n.children[i]? with
    | none => none
    | some c => nodeAt c is

mutual
/-- Whether a node has a descendant of the given type. -/
def hasDescendant (ty : Str) : Node → Bool
  | .leaf _ _ => false
  | .branch _ cs => anyOfType ty cs
/-- Whether one of the nodes, or one of their descendants, has the given type. -/
def anyOfType (ty : Str) : List Node → Bool
  | [] => false
  | c :: cs => decide (c.type = ty) || hasDescendant ty c || anyOfType ty cs
end

/-- The test `n.parent.children[0].node.value === 'import'` of line 91, for a node
whose parent has children `siblings`. -/
def firstChildIsImport (siblings : List Node) : Bool :=
  match siblings with
  | .leaf _ v :: _ => decide (v = "import".toList)
  | _ => false

/-- The callback of lines 90-98 when the test of line 91 holds: the node is
replaced by a `string_double` node holding the rewritten value. The rewriter
calls `split` on the value, which raises a `TypeError` when the value is an
array of children. -/
def importCallback (rw : Str → Except JsError Str) : Node → Except JsError Node
  | .leaf _ v =>
    match rw v with
    | .error e => .error e
    | .ok o => .ok (.leaf "string_double".toList o)
  | .branch _ _ => .error .typeError

mutual
/-- The walk of lines 90-98 below a node. `underAtRule` tells whether an ancestor
is an `atrule` node having an `atkeyword` descendant, that is whether the
descendants of type `string_double` belong to the selection
`$('atrule').has('atkeyword').find('string_double')`. -/
def walkNode (rw : Str → Except JsError Str) (underAtRule : Bool) :
    Node → Except JsError Node
  | .leaf t v => .ok (.leaf t v)
  | .branch t cs =>
    let sel := underAtRule || (decide (t = "atrule".toList) && anyOfType "atkeyword".toList cs)
    match walkChildren rw sel (firstChildIsImport cs) cs with
    | .error e => .error e
    | .ok cs1 => .ok (.branch t cs1)
/-- The walk over the children of one parent: `imp` is the test of line 91 for
that parent. A selected child is replaced by the callback's result (lines
92-95) when `imp` holds and is kept otherwise (line 97). -/
def walkChildren (rw : Str → Except JsError Str) (sel imp : Bool) :
    List Node → Except JsError (List Node)
  | [] => .ok []
  | c :: cs =>
    match (if (sel && decide (c.type = "string_double".toList) && imp) = true then
        importCallback rw c
      else walkNode rw sel c) with
    | .error e => .error e
    | .ok c1 =>
      match walkChildren rw sel imp cs with
      | .error e => .error e
      | .ok cs1 => .ok (c1 :: cs1)
end

mutual
/-- Trees as the parser builds them: a node of type `string_double` is a token. -/
def stringsAreTokens : Node → Bool
  | .leaf _ _ => true
  | .branch t cs => !decide (t = "string_double".toList) && stringsAreTokensAll cs
/-- The same for a list of nodes. -/
def stringsAreTokensAll : List Node → Bool
  | [] => true
  | c :: cs => stringsAreTokens c && stringsAreTokensAll cs
end

mutual
/-- The values of the double-quoted string tokens of a tree. -/
def stringValues : Node → List Str
  | .leaf t v => if t = "string_double".toList then [v] else []
  | .branch _ cs => stringValuesAll cs
/-- The same for a list of nodes. -/
def stringValuesAll : List Node → List Str
  | [] => []
  | c :: cs => stringValues c ++ stringValuesAll cs
end

/-- Lines 89-98 on a whole tree. -/
def walkTree (cwd srcFile rootDir : Str) (ast : Node) : Except JsError Node :=
  walkNode (fun v => rewriteImportDeclaration cwd v srcFile rootDir) false ast

/-! ## The file driver: `transform` and `main` -/

/-- The external collaborators of the script and its process environment: the
stylesheet parser and serialiser of `scss-parser`, `glob.sync` (which reads the
file system) and the working directory of the process. -/
structure Env where
  parse : Str → Except JsError Node
  stringify : Node → Str
  glob : (Str → Option Str) → Str → List Str
  cwd : Str

/-- An explicit file-system state: the text of each existing file. -/
abbrev FileSystem := Str → Option Str

/-- `fs.writeFileSync(path, text)`. -/
def writeFile (fs : FileSystem) (path text : Str) : FileSystem :=
  fun p => if p = path then some text else fs p

/-- The observable effects of a run, in order. -/
inductive Event where
  | stderr (msg : Str)
  | stdout (msg : Str)
  | globbed (pattern : Str)
  | read (path : Str)
  | wrote (path : Str)
  deriving DecidableEq

/-- How a run of `main` ends: normally, by `process.exit(code)`, or by an
uncaught exception. -/
inductive Outcome where
  | completed
  | exited (code : Nat)
  | threw (e : JsError)
  deriving DecidableEq

/-- Lines 86-100 without the file access: the new text of a file with text
`src`. -/
def transformText (env : Env) (src srcFile rootDir : Str) : Except JsError Str :=
  match env.parse src with
  | .error e => .error e
  | .ok ast =>
    match walkTree env.cwd srcFile rootDir ast with
    | .error e => .error e
    | .ok ast1 => .ok (env.stringify ast1)

/-- `transform(srcFile, rootDir)` (lines 85-104): the file system and the effects
after the call, and the exception if one was raised. Reading a missing file
raises; the write of line 102 is reached only when lines 86-100 raised
nothing. -/
def transform (env : Env) (fs : FileSystem) (srcFile rootDir : Str) :
    FileSystem × List Event × Except JsError Unit :=
  match fs srcFile with
  | none => (fs, [.read srcFile], .error .ioError)
  | some src =>
    match transformText env src srcFile rootDir with
    | .error e => (fs, [.read srcFile], .error e)
    | .ok scss =>
      (writeFile fs srcFile scss,
        [.read srcFile, .wrote srcFile, .stdout ("[rewrite] ".toList ++ srcFile)], .ok ())

/-- `srcFiles.forEach((srcFile) => transform(srcFile, rootDir))` (line 82): the
files are processed in order and the first exception ends the loop. -/
def transformAll (env : Env) (rootDir : Str) :
    FileSystem → List Str → FileSystem × List Event × Except JsError Unit
  | fs, [] => (fs, [], .ok ())
  | fs, f :: files =>
    match transform env fs f rootDir with
    | (fs1, ev, .error e) => (fs1, ev, .error e)
    | (fs1, ev, .ok _) =>
      match transformAll env rootDir fs1 files with
      | (fs2, ev2, r) => (fs2, ev ++ ev2, r)

/-- `main(argv)` (lines 74-83). -/
def main (env : Env) (argv : List Str) (fs : FileSystem) :
    FileSystem × List Event × Outcome :=
  if argv.length < 3 then
    (fs, [.stderr "Missing root directory path".toList], .exited 1)
  else
    match argv.get? 2 with
    | none => (fs, [], .threw .typeError)
    | some arg =>
      let rootDir := resolve env.cwd [arg]
      let pattern := rootDir ++ "/**/*.scss".toList
      let srcFiles := env.glob fs pattern
      match transformAll env rootDir fs srcFiles with
      | (fs1, ev, .error e) => (fs1, .globbed pattern :: ev, .threw e)
      | (fs1, ev, .ok _) => (fs1, .globbed pattern :: ev, .completed)

/-! ## Sample inputs -/

/-- The tree of `@import "@material/foo-bar/file";`. -/
def importSheet : Node :=
  .branch "stylesheet".toList [
    .branch "atrule".toList [
      .leaf "atkeyword".toList "import".toList,
      .leaf "space".toList " ".toList,
      .leaf "string_double".toList "@material/foo-bar/file".toList,
      .leaf "punctuation".toList ";".toList]]

/-- The tree of `@import '@material/foo-bar/file';` (single quotes). -/
def importSheetSingle : Node :=
  .branch "stylesheet".toList [
    .branch "atrule".toList [
      .leaf "atkeyword".toList "import".toList,
      .leaf "space".toList " ".toList,
      .leaf "string_single".toList "@material/foo-bar/file".toList,
      .leaf "punctuation".toList ";".toList]]

/-- The tree of `@include foo("import", "@material/foo-bar/file");`: the
parenthesised arguments of `@include` form an `arguments` node whose first
child is the string `"import"`. -/
def includeSheet : Node :=
  .branch "stylesheet".toList [
    .branch "atrule".toList [
      .leaf "atkeyword".toList "include".toList,
      .leaf "space".toList " ".toList,
      .leaf "identifier".toList "foo".toList,
      .branch "arguments".toList [
        .leaf "string_double".toList "import".toList,
        .leaf "punctuation".toList ",".toList,
        .leaf "space".toList " ".toList,
        .leaf "string_double".toList "@material/foo-bar/file".toList],
      .leaf "punctuation".toList ";".toList]]

/-- The tree `includeSheet` with its second argument rewritten. -/
def includeSheetRewritten : Node :=
  .branch "stylesheet".toList [
    .branch "atrule".toList [
      .leaf "atkeyword".toList "include".toList,
      .leaf "space".toList " ".toList,
      .leaf "identifier".toList "foo".toList,
      .branch "arguments".toList [
        .leaf "string_double".toList "import".toList,
        .leaf "punctuation".toList ",".toList,
        .leaf "space".toList " ".toList,
        .leaf "string_double".toList "../fooBar/file".toList],
      .leaf "punctuation".toList ";".toList]]

/-- A small stand-in for the external libraries, used to instantiate the
theorems about the file driver: the text `}` does not parse, any other text
parses as a stylesheet with one `@import` of that text, and serialisation
returns the imported source. Globbing yields the three stylesheets of
`toyFiles` and the working directory is `/`. -/
def toyEnv : Env where
  parse := fun src =>
    if src = "\x7d".toList then .error .parseError
    else .ok (.branch "stylesheet".toList [
      .branch "atrule".toList [
        .leaf "atkeyword".toList "import".toList,
        .leaf "space".toList " ".toList,
        .leaf "string_double".toList src,
        .leaf "punctuation".toList ";".toList]])
  stringify := fun n =>
    match n with
    | .branch _ [.branch _ [_, _, .leaf _ v, _]] => v
    | _ => []
  glob := fun _ _ =>
    ["/root/a.scss".toList, "/root/b.scss".toList, "/root/c.scss".toList]
  cwd := "/".toList

/-- A file system with three stylesheets under `/root`. -/
def toyFiles : FileSystem := fun p =>
  if p = "/root/a.scss".toList then some "@material/foo-bar/file".toList
  else if p = "/root/b.scss".toList then some "\x7d".toList
  else if p = "/root/c.scss".toList then some "@material/baz/x".toList
  else none

/-! ## Theorems -/

/-! ### Splitting, joining and the module-name conversion -/

theorem splitSlash_ne_nil (s : Str) : splitSlash s ≠ [] := by
  induction s with
  | nil => simp [splitSlash]
  | cons c cs ih =>
    unfold splitSlash
    split
    · simp
    · split <;> simp

theorem splitSlash_noSlash (s : Str) (h : '/' ∉ s) : splitSlash s = [s] := by
  induction s with
  | nil => rfl
  | cons c cs ih =>
    have hc : c ≠ '/' := fun e => h (by simp [e])
    have hcs : '/' ∉ cs := fun e => h (by simp [e])
    simp [splitSlash, hc, ih hcs]

theorem splitSlash_append_slash (s t : Str) (h : '/' ∉ s) :
    splitSlash (s ++ '/' :: t) = s :: splitSlash t := by
  induction s with
  | nil => simp [splitSlash]
  | cons c cs ih =>
    have hc : c ≠ '/' := fun e => h (by simp [e])
    have hcs : '/' ∉ cs := fun e => h (by simp [e])
    simp [splitSlash, hc, ih hcs]

theorem splitSlash_joinSlash (segs : List Str) (hne : segs ≠ [])
    (h : ∀ s ∈ segs, '/' ∉ s) : splitSlash (joinSlash segs) = segs := by
  induction segs with
  | nil => exact absurd rfl hne
  | cons s ss ih =>
    cases ss with
    | nil => exact splitSlash_noSlash s (h s (by simp))
    | cons t ts =>
      have hs : '/' ∉ s := h s (by simp)
      have := ih (by simp) (fun x hx => h x (by simp [hx]))
      simp only [joinSlash]
      rw [splitSlash_append_slash _ _ hs, this]

theorem isLowerAZ_ne_hyphen (c : Char) (h : isLowerAZ c = true) : c ≠ '-' := by
  intro e; subst e; revert h; decide

theorem kebabToCamel_cons_ne (c : Char) (cs : Str) (h : c ≠ '-') :
    kebabToCamel (c :: cs) = c :: kebabToCamel cs := by
  cases cs with
  | nil => rfl
  | cons d ds => simp [kebabToCamel, h]

theorem kebabToCamel_hyphen_lower (d : Char) (rest : Str) (h : isLowerAZ d = true) :
    kebabToCamel ('-' :: d :: rest) = d.toUpper :: kebabToCamel rest := by
  simp [kebabToCamel, h]

theorem kebabToCamel_append (w t : Str) (h : ∀ c ∈ w, c ≠ '-') :
    kebabToCamel (w ++ t) = w ++ kebabToCamel t := by
  induction w with
  | nil => rfl
  | cons c cs ih =>
    have hc : c ≠ '-' := h c (by simp)
    simp only [List.cons_append]
    rw [kebabToCamel_cons_ne _ _ hc, ih (fun x hx => h x (by simp [hx]))]

theorem joinHyphen_cons (w : Str) (ws : List Str) :
    joinHyphen (w :: ws) = w ++ (ws.map (fun v => '-' :: v)).flatten := by
  induction ws generalizing w with
  | nil => simp [joinHyphen]
  | cons v vs ih => simp [joinHyphen, ih v]

theorem kebabToCamel_words (w0 : Str) (ws : List Str)
    (h0 : ∀ c ∈ w0, isLowerAZ c = true)
    (h : ∀ w ∈ ws, w ≠ [] ∧ ∀ c ∈ w, isLowerAZ c = true) :
    kebabToCamel (w0 ++ (ws.map (fun v => '-' :: v)).flatten)
      = w0 ++ (ws.map capitalize).flatten := by
  induction ws generalizing w0 with
  | nil =>
    simp only [List.map_nil, List.flatten_nil]
    rw [kebabToCamel_append _ _ (fun c hc => isLowerAZ_ne_hyphen c (h0 c hc))]
    rfl
  | cons w ws ih =>
    obtain ⟨hne, hw⟩ := h w (by simp)
    cases w with
    | nil => exact absurd rfl hne
    | cons d ds =>
      rw [kebabToCamel_append _ _ (fun c hc => isLowerAZ_ne_hyphen c (h0 c hc))]
      simp only [List.map_cons, List.flatten_cons, List.cons_append, capitalize]
      rw [kebabToCamel_hyphen_lower _ _ (hw d (by simp))]
      rw [ih ds (fun c hc => hw c (by simp [hc])) (fun x hx => h x (by simp [hx]))]

theorem kebabToCamel_joinHyphen (ws : List Str) (h : KebabWords ws) :
    kebabToCamel (joinHyphen ws) = camelCase ws := by
  obtain ⟨hne, hw⟩ := h
  cases ws with
  | nil => exact absurd rfl hne
  | cons w ws =>
    rw [joinHyphen_cons, camelCase]
    exact kebabToCamel_words w ws (hw w (by simp)).2 (fun x hx => hw x (by simp [hx]))

theorem toUpper_lower_ne_hyphen (d : Char) (h : isLowerAZ d = true) : d.toUpper ≠ '-' := by
  have h1 : 97 ≤ d.toNat ∧ d.toNat ≤ 122 := by
    simp only [isLowerAZ, Bool.and_eq_true, decide_eq_true_eq] at h
    exact h
  have e : d = Char.ofNat d.toNat := (Char.ofNat_toNat d).symm
  rw [e]
  generalize d.toNat = n at h1
  obtain ⟨a, b⟩ := h1
  interval_cases n <;> decide

theorem isLowerAZ_isAlpha (c : Char) (h : isLowerAZ c = true) : c.isAlpha = true := by
  have h1 : 97 ≤ c.toNat ∧ c.toNat ≤ 122 := by
    simp only [isLowerAZ, Bool.and_eq_true, decide_eq_true_eq] at h
    exact h
  have e : c = Char.ofNat c.toNat := (Char.ofNat_toNat c).symm
  rw [e]
  generalize c.toNat = n at h1
  obtain ⟨a, b⟩ := h1
  interval_cases n <;> decide

theorem toUpper_lower_isAlpha (d : Char) (h : isLowerAZ d = true) :
    d.toUpper.isAlpha = true := by
  have h1 : 97 ≤ d.toNat ∧ d.toNat ≤ 122 := by
    simp only [isLowerAZ, Bool.and_eq_true, decide_eq_true_eq] at h
    exact h
  have e : d = Char.ofNat d.toNat := (Char.ofNat_toNat d).symm
  rw [e]
  generalize d.toNat = n at h1
  obtain ⟨a, b⟩ := h1
  interval_cases n <;> decide

theorem capitalize_isAlpha (w : Str) (h : ∀ c ∈ w, isLowerAZ c = true) :
    ∀ c ∈ capitalize w, c.isAlpha = true := by
  cases w with
  | nil => simp [capitalize]
  | cons d ds =>
    intro c hc
    simp only [capitalize, List.mem_cons] at hc
    rcases hc with rfl | hc
    · exact toUpper_lower_isAlpha d (h d (by simp))
    · exact isLowerAZ_isAlpha c (h c (by simp [hc]))

theorem camelCase_isAlpha (ws : List Str) (h : KebabWords ws) :
    ∀ c ∈ camelCase ws, c.isAlpha = true := by
  obtain ⟨hne, hw⟩ := h
  cases ws with
  | nil => exact absurd rfl hne
  | cons w ws =>
    intro c hc
    simp only [camelCase, List.mem_append, List.mem_flatten, List.mem_map] at hc
    rcases hc with hc | ⟨l, ⟨v, hv, rfl⟩, hc⟩
    · exact isLowerAZ_isAlpha c ((hw w (by simp)).2 c hc)
    · exact capitalize_isAlpha v (hw v (by simp [hv])).2 c hc

theorem joinHyphen_noSlash (ws : List Str) (h : KebabWords ws) : '/' ∉ joinHyphen ws := by
  obtain ⟨hne, hw⟩ := h
  cases ws with
  | nil => exact absurd rfl hne
  | cons w ws =>
    rw [joinHyphen_cons]
    intro hc
    simp only [List.mem_append, List.mem_flatten, List.mem_map] at hc
    rcases hc with hc | ⟨l, ⟨v, hv, rfl⟩, hc⟩
    · exact absurd ((hw w (by simp)).2 _ hc) (by decide)
    · simp only [List.mem_cons] at hc
      rcases hc with hc | hc
      · exact absurd hc (by decide)
      · exact absurd ((hw v (by simp [hv])).2 _ hc) (by decide)

theorem splitSlash_internal (ws rest : List Str) (hws : KebabWords ws)
    (hrest : ∀ s ∈ rest, '/' ∉ s) :
    splitSlash (joinSlash (atMaterial :: joinHyphen ws :: rest))
      = atMaterial :: joinHyphen ws :: rest := by
  apply splitSlash_joinSlash _ (by simp)
  intro s hs
  simp only [List.mem_cons] at hs
  rcases hs with rfl | rfl | hs
  · decide
  · exact joinHyphen_noSlash ws hws
  · exact hrest s hs

theorem rewrittenImportSource_internal (rootDir : Str) (ws rest : List Str)
    (hws : KebabWords ws) (hrest : ∀ s ∈ rest, '/' ∉ s) :
    rewrittenImportSource (joinSlash (atMaterial :: joinHyphen ws :: rest)) rootDir
      = .ok (joinSlash ((rootDir ++ '/' :: camelCase ws) :: rest)) := by
  unfold rewrittenImportSource
  simp only [splitSlash_internal ws rest hws hrest]
  simp [kebabToCamel_joinHyphen ws hws]

/-! ### The substitution of line 120 -/

theorem findSub_none (pat s : Str) (h : ¬ pat <:+: s) : findSub pat s = none := by
  induction s with
  | nil =>
    have hp : pat ≠ [] := fun e => h (by simp [e])
    simp [findSub, hp]
  | cons c cs ih =>
    have h1 : ¬ pat.isPrefixOf (c :: cs) = true := by
      intro hp
      exact h (List.isPrefixOf_iff_prefix.mp hp).isInfix
    have h2 : ¬ pat <:+: cs := fun hi => h (hi.trans (List.suffix_cons c cs).isInfix)
    simp [findSub, h1, ih h2]

theorem replaceFirst_absent (pat repl s : Str) (h : ¬ pat <:+: s) :
    replaceFirst pat repl s = s := by
  simp [replaceFirst, findSub_none pat s h]

theorem infix_append_sep (pat a b : Str) (c : Char) (hc : c ∉ pat)
    (h : pat <:+: a ++ c :: b) : pat <:+: a ∨ pat <:+: b := by
  obtain ⟨s, t, e⟩ := h
  rcases List.append_eq_append_iff.mp e with ⟨a1, ha, ht⟩ | ⟨c1, hsp, hcb⟩
  · -- a = (s ++ pat) ++ a1
    left
    exact ⟨s, a1, ha.symm⟩
  · rcases List.append_eq_append_iff.mp hsp with ⟨a2, ha, hp⟩ | ⟨c2, hs, hc1⟩
    · -- a = s ++ a2, pat = a2 ++ c1
      cases c1 with
      | nil =>
        left
        simp only [List.append_nil] at hp
        exact ⟨s, [], by simp [ha, hp]⟩
      | cons x xs =>
        simp only [List.cons_append, List.cons.injEq] at hcb
        exact absurd (by simp [hp, ← hcb.1]) hc
    · -- s = a ++ c2, c1 = c2 ++ pat
      cases c2 with
      | nil =>
        simp only [List.nil_append] at hc1
        rw [hc1] at hcb
        cases pat with
        | nil => left; exact List.nil_infix
        | cons x xs =>
          simp only [List.cons_append, List.cons.injEq] at hcb
          exact absurd (by simp [← hcb.1]) hc
      | cons x xs =>
        right
        rw [hc1] at hcb
        simp only [List.cons_append, List.cons.injEq] at hcb
        exact ⟨xs, t, by simp [hcb.2]⟩

theorem infix_joinSlash (pat : Str) (segs : List Str) (hne : segs ≠ [])
    (hc : '/' ∉ pat) (h : pat <:+: joinSlash segs) : ∃ s ∈ segs, pat <:+: s := by
  induction segs with
  | nil => exact absurd rfl hne
  | cons s ss ih =>
    cases ss with
    | nil => exact ⟨s, by simp, h⟩
    | cons t ts =>
      simp only [joinSlash] at h
      rcases infix_append_sep pat _ _ _ hc h with h1 | h1
      · exact ⟨s, by simp, h1⟩
      · obtain ⟨x, hx, hi⟩ := ih (by simp) h1
        exact ⟨x, by simp [hx], hi⟩

theorem atMaterial_not_infix_camelCase (ws : List Str) (h : KebabWords ws) :
    ¬ atMaterial <:+: camelCase ws := by
  intro hi
  have hm : '@' ∈ camelCase ws := hi.subset (by decide)
  exact absurd (camelCase_isAlpha ws h _ hm) (by decide)

theorem atMaterial_not_infix_step1 (r : Str) (ws rest : List Str) (hws : KebabWords ws)
    (hr : ¬ atMaterial <:+: r) (hrest : ∀ s ∈ rest, ¬ atMaterial <:+: s) :
    ¬ atMaterial <:+: joinSlash ((r ++ '/' :: camelCase ws) :: rest) := by
  intro hi
  obtain ⟨s, hs, h1⟩ := infix_joinSlash atMaterial _ (by simp) (by decide) hi
  simp only [List.mem_cons] at hs
  rcases hs with rfl | hs
  · rcases infix_append_sep atMaterial _ _ _ (by decide) h1 with h2 | h2
    · exact hr h2
    · exact atMaterial_not_infix_camelCase ws hws h2
  · exact hrest s hs h1

theorem isAbsolute_append (a b : Str) (h : isAbsolute a = true) :
    isAbsolute (a ++ b) = true := by
  cases a with
  | nil => simp [isAbsolute] at h
  | cons c cs => simpa [isAbsolute] using h

theorem isAbsolute_joinSlash_cons (a : Str) (rest : List Str) (h : isAbsolute a = true) :
    isAbsolute (joinSlash (a :: rest)) = true := by
  cases rest with
  | nil => simpa [joinSlash] using h
  | cons t ts => simpa [joinSlash] using isAbsolute_append a _ h

theorem rewrite_internal_clean (cwd r f : Str) (ws rest : List Str)
    (hr : isAbsolute r = true) (hws : KebabWords ws) (hrest : ∀ s ∈ rest, '/' ∉ s)
    (hr2 : ¬ atMaterial <:+: r) (hrest2 : ∀ s ∈ rest, ¬ atMaterial <:+: s) :
    rewriteImportDeclaration cwd (joinSlash (atMaterial :: joinHyphen ws :: rest)) f r
      = .ok (relative cwd (dirname f) (joinSlash ((r ++ '/' :: camelCase ws) :: rest))) := by
  have habs : isAbsolute (joinSlash ((r ++ '/' :: camelCase ws) :: rest)) = true :=
    isAbsolute_joinSlash_cons _ _ (isAbsolute_append r _ hr)
  simp only [rewriteImportDeclaration, rewrittenImportSource_internal r ws rest hws hrest,
    resolveImportSource, habs, if_true, pathToImport]
  rw [replaceFirst_absent _ _ _ (atMaterial_not_infix_step1 r ws rest hws hr2 hrest2)]

/-! ### Normalisation of path segments -/

theorem splitSlash_append (a b : Str) :
    splitSlash (a ++ '/' :: b) = splitSlash a ++ splitSlash b := by
  induction a with
  | nil => simp [splitSlash]
  | cons c cs ih =>
    by_cases hc : c = '/'
    · simp [splitSlash, hc, ih]
    · simp only [List.cons_append, splitSlash, hc, if_false]
      have ih2 : splitSlash (cs.append ('/' :: b)) = splitSlash cs ++ splitSlash b := ih
      rw [ih2]
      cases h : splitSlash cs with
      | nil => exact absurd h (splitSlash_ne_nil cs)
      | cons s ss => simp

theorem splitSlash_mem_noSlash (p : Str) : ∀ s ∈ splitSlash p, '/' ∉ s := by
  induction p with
  | nil => simp [splitSlash]
  | cons c cs ih =>
    by_cases hc : c = '/'
    · simp only [splitSlash, hc, if_true]
      intro s hs
      simp only [List.mem_cons] at hs
      rcases hs with rfl | hs
      · simp
      · exact ih s hs
    · simp only [splitSlash, hc, if_false]
      cases h : splitSlash cs with
      | nil => exact absurd h (splitSlash_ne_nil cs)
      | cons s ss =>
        rw [h] at ih
        intro x hx
        simp only [List.mem_cons] at hx
        rcases hx with rfl | hx
        · intro hm
          simp only [List.mem_cons] at hm
          rcases hm with hm | hm
          · exact hc hm.symm
          · exact ih s (by simp) hm
        · exact ih x (by simp [hx])

theorem normalizeSegs_append (b : Bool) (res xs ys : List Str) :
    normalizeSegs b res (xs ++ ys) = normalizeSegs b (normalizeSegs b res xs) ys := by
  induction xs generalizing res with
  | nil => rfl
  | cons x xs ih => simp [normalizeSegs, ih]

theorem normStep_clean (res : List Str) (seg : Str) (hres : ∀ s ∈ res, CleanSeg s)
    (hseg : '/' ∉ seg) : ∀ s ∈ normStep false res seg, CleanSeg s := by
  unfold normStep
  split
  · exact hres
  · rename_i h1
    split
    · split
      · exact fun s hs => hres s (List.dropLast_subset res hs)
      · simpa using hres
    · rename_i h2
      intro s hs
      simp only [List.mem_append, List.mem_singleton] at hs
      rcases hs with hs | rfl
      · exact hres s hs
      · simp only [not_or] at h1
        exact ⟨h1.1, h1.2, h2, hseg⟩

theorem normalizeSegs_clean (res segs : List Str) (hres : ∀ s ∈ res, CleanSeg s)
    (hsegs : ∀ s ∈ segs, '/' ∉ s) : ∀ s ∈ normalizeSegs false res segs, CleanSeg s := by
  induction segs generalizing res with
  | nil => exact hres
  | cons x xs ih =>
    simp only [normalizeSegs]
    exact ih _ (normStep_clean res x hres (hsegs x (by simp)))
      (fun s hs => hsegs s (by simp [hs]))

theorem normalizeSegs_push (res b ys : List Str) (hb : ∀ s ∈ b, CleanSeg s) :
    normalizeSegs false res (b ++ ys) = normalizeSegs false (res ++ b) ys := by
  induction b generalizing res with
  | nil => simp
  | cons x xs ih =>
    obtain ⟨h1, h2, h3, _⟩ := hb x (by simp)
    show normalizeSegs false (normStep false res x) (xs ++ ys) = _
    rw [ih _ (fun s hs => hb s (by simp [hs]))]
    have h2' : ¬ x = ['.'] := h2
    have h3' : ¬ x = ['.', '.'] := h3
    simp [normStep, h1, h2', h3']

theorem normStep_pop (c : List Str) (x : Str) (hx : CleanSeg x) :
    normStep false (c ++ [x]) "..".toList = c := by
  obtain ⟨_, _, h3, _⟩ := hx
  have e1 : ¬ ("..".toList = ([] : Str) ∨ "..".toList = ".".toList) := by decide
  have h3' : ¬ x = ['.', '.'] := h3
  simp only [normStep, e1, if_false, if_true]
  simp [h3']

theorem normalizeSegs_pop (c a ys : List Str) (ha : ∀ s ∈ a, CleanSeg s) :
    normalizeSegs false (c ++ a) (List.replicate a.length "..".toList ++ ys)
      = normalizeSegs false c ys := by
  induction a using List.reverseRecOn with
  | nil => simp
  | append_singleton a x ih =>
    have hx := ha x (by simp)
    have e : List.replicate (a ++ [x]).length "..".toList ++ ys
        = "..".toList :: (List.replicate a.length "..".toList ++ ys) := by
      simp [List.replicate_succ]
    rw [e, ← List.append_assoc]
    show normalizeSegs false (normStep false (c ++ a ++ [x]) "..".toList) _ = _
    rw [normStep_pop _ _ hx]
    exact ih (fun s hs => ha s (by simp [hs]))

/-! ### `path.resolve` and `path.relative` on absolute paths -/

theorem normStep_empty (b : Bool) (res : List Str) : normStep b res [] = res := by
  simp [normStep]

theorem resolveArgs_abs (cwd p : Str) (h : isAbsolute p = true) :
    resolveArgs [cwd, p] = (p ++ ['/'], true) := by
  have hp : p ≠ [] := by rintro rfl; simp [isAbsolute] at h
  simp [resolveArgs, hp, h]

theorem resolve_abs (cwd p : Str) (h : isAbsolute p = true) :
    resolve cwd [p] = '/' :: joinSlash (normalizeSegs false [] (splitSlash p)) := by
  have e : splitSlash (p ++ ['/']) = splitSlash p ++ [[]] := by
    rw [splitSlash_append]; rfl
  simp only [resolve, resolveArgs_abs cwd p h, if_true, Bool.not_true, e,
    normalizeSegs_append]
  simp [normalizeSegs, normStep_empty]

theorem cleanSeg_noSlash (segs : List Str) (h : ∀ s ∈ segs, CleanSeg s) :
    ∀ s ∈ segs, '/' ∉ s := fun s hs => (h s hs).2.2.2

theorem pathSegments_root_join (segs : List Str) (h : ∀ s ∈ segs, CleanSeg s) :
    pathSegments ('/' :: joinSlash segs) = segs := by
  cases segs with
  | nil => simp [pathSegments, joinSlash, splitSlash]
  | cons s ss =>
    simp only [pathSegments, List.drop_succ_cons, List.drop_zero]
    rw [splitSlash_joinSlash _ (by simp) (cleanSeg_noSlash _ h)]
    rw [List.filter_eq_self]
    intro x hx
    simpa using (h x hx).1

theorem normalized_clean (p : Str) :
    ∀ s ∈ normalizeSegs false [] (splitSlash p), CleanSeg s :=
  normalizeSegs_clean [] _ (by simp) (splitSlash_mem_noSlash p)

theorem dropCommon_spec (xs ys : List Str) :
    ∃ c, xs = c ++ (dropCommon xs ys).1 ∧ ys = c ++ (dropCommon xs ys).2 := by
  induction xs generalizing ys with
  | nil => exact ⟨[], by simp [dropCommon]⟩
  | cons x xs ih =>
    cases ys with
    | nil => exact ⟨[], by simp [dropCommon]⟩
    | cons y ys =>
      by_cases hxy : x = y
      · obtain ⟨c, h1, h2⟩ := ih ys
        refine ⟨x :: c, ?_, ?_⟩
        · simp only [dropCommon, hxy, if_true, List.cons_append, List.cons.injEq, true_and]
          exact h1
        · simp only [dropCommon, hxy, if_true, List.cons_append, List.cons.injEq, true_and]
          exact h2
      · exact ⟨[], by simp [dropCommon, hxy]⟩

theorem joinSlash_injective_clean (xs ys : List Str) (hx : ∀ s ∈ xs, CleanSeg s)
    (hy : ∀ s ∈ ys, CleanSeg s) (h : joinSlash xs = joinSlash ys) : xs = ys := by
  have := congrArg (fun p => pathSegments ('/' :: p)) h
  simpa [pathSegments_root_join _ hx, pathSegments_root_join _ hy] using this

/-- The shape of `path.relative` on two absolute paths. -/
theorem relative_abs_shape (cwd d c : Str) (hd : isAbsolute d = true)
    (hc : isAbsolute c = true) :
    ∃ pre a b, normalizeSegs false [] (splitSlash d) = pre ++ a
      ∧ normalizeSegs false [] (splitSlash c) = pre ++ b
      ∧ relative cwd d c = joinSlash (List.replicate a.length "..".toList ++ b) := by
  have hnd := normalized_clean d
  have hnc := normalized_clean c
  by_cases h1 : d = c
  · subst h1
    exact ⟨normalizeSegs false [] (splitSlash d), [], [], by simp, by simp,
      by simp [relative, joinSlash]⟩
  · by_cases h2 : resolve cwd [d] = resolve cwd [c]
    · have h3 := h2
      rw [resolve_abs cwd d hd, resolve_abs cwd c hc] at h3
      have h4 := joinSlash_injective_clean _ _ hnd hnc (List.cons.inj h3).2
      exact ⟨normalizeSegs false [] (splitSlash d), [], [], by simp, by simp [h4],
        by simp [relative, h1, h2, joinSlash]⟩
    · obtain ⟨pre, e1, e2⟩ := dropCommon_spec (normalizeSegs false [] (splitSlash d))
        (normalizeSegs false [] (splitSlash c))
      refine ⟨pre, _, _, e1, e2, ?_⟩
      simp only [relative, h1, h2, if_false]
      rw [resolve_abs cwd d hd, resolve_abs cwd c hc, pathSegments_root_join _ hnd,
        pathSegments_root_join _ hnc]

theorem isAbsolute_dirname (f : Str) (h : isAbsolute f = true) :
    isAbsolute (dirname f) = true := by
  cases f with
  | nil => simp [isAbsolute] at h
  | cons c body =>
    have hc : c = '/' := by simpa [isAbsolute] using h
    subst hc
    simp only [dirname]
    split
    · simp [isAbsolute]
    · split
      · simp [isAbsolute]
      · simp [isAbsolute]

theorem isAbsolute_replaceFirst (repl s : Str) (h : isAbsolute s = true) :
    isAbsolute (replaceFirst atMaterial repl s) = true := by
  cases s with
  | nil => simp [isAbsolute] at h
  | cons c cs =>
    have hc : c = '/' := by simpa [isAbsolute] using h
    subst hc
    have hp : ¬ atMaterial.isPrefixOf ('/' :: cs) = true := by
      simp [atMaterial, List.isPrefixOf]
    simp only [replaceFirst, findSub, hp, if_false]
    cases findSub atMaterial cs with
    | none => simp [isAbsolute]
    | some p => simp [isAbsolute]

theorem isAbsolute_joinSlash_false (segs : List Str)
    (h : ∀ s ∈ segs, s ≠ [] ∧ '/' ∉ s) : isAbsolute (joinSlash segs) = false := by
  cases segs with
  | nil => rfl
  | cons s ss =>
    obtain ⟨h1, h2⟩ := h s (by simp)
    cases s with
    | nil => exact absurd rfl h1
    | cons c cs =>
      have hc : c ≠ '/' := fun e => h2 (by simp [e])
      cases ss with
      | nil => simp [joinSlash, isAbsolute, hc]
      | cons t ts => simp [joinSlash, isAbsolute, hc]

theorem relative_abs_not_absolute (cwd d c : Str) (hd : isAbsolute d = true)
    (hc : isAbsolute c = true) : isAbsolute (relative cwd d c) = false := by
  obtain ⟨pre, a, b, e1, e2, e3⟩ := relative_abs_shape cwd d c hd hc
  rw [e3]
  apply isAbsolute_joinSlash_false
  intro s hs
  simp only [List.mem_append] at hs
  rcases hs with hs | hs
  · rw [List.eq_of_mem_replicate hs]; decide
  · have := normalized_clean c s (by rw [e2]; simp [hs])
    exact ⟨this.1, this.2.2.2⟩

theorem resolve_dir_relative (cwd d c : Str) (hd : isAbsolute d = true)
    (hc : isAbsolute c = true) :
    resolve cwd [d, relative cwd d c] = resolve cwd [c] := by
  obtain ⟨pre, a, b, e1, e2, e3⟩ := relative_abs_shape cwd d c hd hc
  have hrel := relative_abs_not_absolute cwd d c hd hc
  have hdne : d ≠ [] := by rintro rfl; simp [isAbsolute] at hd
  have hclean_a : ∀ s ∈ a, CleanSeg s := fun s hs =>
    normalized_clean d s (by rw [e1]; simp [hs])
  have hclean_b : ∀ s ∈ b, CleanSeg s := fun s hs =>
    normalized_clean c s (by rw [e2]; simp [hs])
  rw [resolve_abs cwd c hc, e2]
  by_cases ho : relative cwd d c = []
  · -- nothing to append: both lists of segments are already equal
    have hab : List.replicate a.length "..".toList ++ b = [] := by
      rw [e3] at ho
      cases hl : List.replicate a.length "..".toList ++ b with
      | nil => rfl
      | cons s ss =>
        exfalso
        rw [hl] at ho
        have hs : s ≠ [] := by
          have hm : s ∈ List.replicate a.length "..".toList ++ b := by rw [hl]; simp
          simp only [List.mem_append] at hm
          rcases hm with hm | hm
          · rw [List.eq_of_mem_replicate hm]; decide
          · exact (hclean_b s hm).1
        cases s with
        | nil => exact hs rfl
        | cons x xs => cases ss <;> simp [joinSlash] at ho
    have hb : b = [] := (List.append_eq_nil.mp hab).2
    have ha : a = [] := by
      have := (List.append_eq_nil.mp hab).1
      simpa using congrArg List.length this
    have e : splitSlash (d ++ ['/']) = splitSlash d ++ [[]] := by
      rw [splitSlash_append]; rfl
    simp only [resolve, resolveArgs, ho, hdne, hd, if_true, if_false, Bool.not_true]
    simp [e, normalizeSegs_append, normalizeSegs, normStep_empty, e1, ha, hb]
  · have hsegs : ∀ s ∈ List.replicate a.length "..".toList ++ b, '/' ∉ s := by
      intro s hs
      simp only [List.mem_append] at hs
      rcases hs with hs | hs
      · rw [List.eq_of_mem_replicate hs]; decide
      · exact (hclean_b s hs).2.2.2
    have hne : List.replicate a.length "..".toList ++ b ≠ [] := by
      intro h; rw [e3, h] at ho; exact ho rfl
    have e : splitSlash (d ++ '/' :: (relative cwd d c ++ ['/']))
        = splitSlash d ++ ((List.replicate a.length "..".toList ++ b) ++ [[]]) := by
      rw [splitSlash_append, splitSlash_append, e3, splitSlash_joinSlash _ hne hsegs]
      rfl
    have hres : resolveArgs [cwd, d, relative cwd d c]
        = (d ++ '/' :: (relative cwd d c ++ ['/']), true) := by
      simp [resolveArgs, ho, hdne, hd, hrel]
    simp only [resolve, hres, if_true, Bool.not_true, e]
    rw [normalizeSegs_append, e1, List.append_assoc, normalizeSegs_pop _ _ _ hclean_a,
      normalizeSegs_push _ _ _ hclean_b]
    simp [normalizeSegs, normStep_empty]

/-! ### `rewriteImportDeclaration` -/

theorem joinSlash_cons_head (c : Char) (s : Str) (ss : List Str) :
    joinSlash ((c :: s) :: ss) = c :: joinSlash (s :: ss) := by
  cases ss <;> simp [joinSlash]

theorem joinSlash_splitSlash (s : Str) : joinSlash (splitSlash s) = s := by
  induction s with
  | nil => rfl
  | cons c cs ih =>
    by_cases hc : c = '/'
    · simp only [splitSlash, hc, if_true]
      cases h : splitSlash cs with
      | nil => exact absurd h (splitSlash_ne_nil cs)
      | cons t ts => rw [h] at ih; simp [joinSlash, ih]
    · simp only [splitSlash, hc, if_false]
      cases h : splitSlash cs with
      | nil => exact absurd h (splitSlash_ne_nil cs)
      | cons t ts => rw [h] at ih; simp [joinSlash_cons_head, ih]

theorem rewrittenImportSource_error_iff (s r : Str) :
    rewrittenImportSource s r = .error .typeError ↔ s = atMaterial := by
  constructor
  · intro h
    unfold rewrittenImportSource at h
    have hj := joinSlash_splitSlash s
    cases hs : splitSlash s with
    | nil => exact absurd hs (splitSlash_ne_nil s)
    | cons x xs =>
      rw [hs] at hj
      cases xs with
      | nil =>
        simp only [joinSlash] at hj
        simp only [hs, List.head?_cons] at h
        split at h
        · rename_i h1
          rw [← hj]
          exact Option.some.inj h1
        · cases h
      | cons y ys =>
        simp only [hs, List.head?_cons] at h
        split at h
        · simp at h
        · cases h
  · rintro rfl
    have e : splitSlash atMaterial = [atMaterial] := by decide
    simp [rewrittenImportSource, e]

theorem rewrittenImportSource_ok_or_typeError (s r : Str) :
    (∃ s1, rewrittenImportSource s r = .ok s1)
      ∨ rewrittenImportSource s r = .error .typeError := by
  unfold rewrittenImportSource
  simp only
  split
  · split
    · right; rfl
    · left; exact ⟨_, rfl⟩
  · left; exact ⟨_, rfl⟩

theorem rewrite_error_iff (cwd s f r : Str) :
    rewriteImportDeclaration cwd s f r = .error .typeError ↔ s = atMaterial := by
  rw [← rewrittenImportSource_error_iff s r]
  unfold rewriteImportDeclaration
  rcases rewrittenImportSource_ok_or_typeError s r with ⟨s1, h⟩ | h
  · simp [h]
  · simp [h]

theorem rewrite_ok_iff (cwd s f r : Str) :
    (∃ o, rewriteImportDeclaration cwd s f r = .ok o) ↔ s ≠ atMaterial := by
  rw [Ne, ← rewrittenImportSource_error_iff s r]
  unfold rewriteImportDeclaration
  rcases rewrittenImportSource_ok_or_typeError s r with ⟨s1, h⟩ | h
  · simp [h]
  · simp [h]

theorem rewrite_unchanged_of_foreign (cwd importSource srcFile rootDir : Str)
    (hfirst : (splitSlash importSource).head? ≠ some atMaterial)
    (hrel : isAbsolute importSource = false) :
    rewriteImportDeclaration cwd importSource srcFile rootDir = .ok importSource := by
  simp [rewriteImportDeclaration, rewrittenImportSource, hfirst, resolveImportSource, hrel]

theorem rewrite_of_step1 (cwd s f r s1 : Str) (h1 : rewrittenImportSource s r = .ok s1) :
    rewriteImportDeclaration cwd s f r = .ok (resolveImportSource cwd s1 f r) := by
  simp [rewriteImportDeclaration, h1]

theorem resolveImportSource_not_absolute (cwd s1 f r : Str) (hf : isAbsolute f = true) :
    isAbsolute (resolveImportSource cwd s1 f r) = false := by
  unfold resolveImportSource
  by_cases h : isAbsolute s1 = true
  · simp only [h, if_true]
    exact relative_abs_not_absolute cwd _ _ (isAbsolute_dirname f hf)
      (isAbsolute_replaceFirst r s1 h)
  · simp only [h, if_false]
    simpa using h

theorem rewrite_not_absolute (cwd s f r o : Str) (hf : isAbsolute f = true)
    (h : rewriteImportDeclaration cwd s f r = .ok o) : isAbsolute o = false := by
  rcases rewrittenImportSource_ok_or_typeError s r with ⟨s1, h1⟩ | h1
  · rw [rewrite_of_step1 cwd s f r s1 h1] at h
    cases h
    exact resolveImportSource_not_absolute cwd s1 f r hf
  · simp [rewriteImportDeclaration, h1] at h

/-! ### The tree walker -/

theorem walkChildren_cons_ok (rw : Str → Except JsError Str) (sel imp : Bool)
    (c : Node) (cs res : List Node)
    (h : walkChildren rw sel imp (c :: cs) = .ok res) :
    ∃ c1 cs1, res = c1 :: cs1
      ∧ (if (sel && decide (c.type = "string_double".toList) && imp) = true then
            importCallback rw c else walkNode rw sel c) = .ok c1
      ∧ walkChildren rw sel imp cs = .ok cs1 := by
  rw [walkChildren] at h
  split at h
  · cases h
  · rename_i c1 hc1
    split at h
    · cases h
    · rename_i cs1 hcs1
      cases h
      exact ⟨c1, cs1, rfl, hc1, hcs1⟩

theorem walkChildren_get (rw : Str → Except JsError Str) (sel imp : Bool)
    (cs res : List Node) (h : walkChildren rw sel imp cs = .ok res)
    (i : Nat) (c : Node) (hc : cs[i]? = some c) :
    ∃ c1, res[i]? = some c1
      ∧ (if (sel && decide (c.type = "string_double".toList) && imp) = true then
            importCallback rw c else walkNode rw sel c) = .ok c1 := by
  induction cs generalizing res i with
  | nil => simp at hc
  | cons d ds ih =>
    obtain ⟨c1, cs1, rfl, h1, h2⟩ := walkChildren_cons_ok rw sel imp d ds res h
    cases i with
    | zero =>
      simp only [List.getElem?_cons_zero, Option.some.injEq] at hc
      subst hc
      exact ⟨c1, by simp, h1⟩
    | succ j =>
      simp only [List.getElem?_cons_succ] at hc
      obtain ⟨c2, e1, e2⟩ := ih cs1 h2 j hc
      exact ⟨c2, by simpa using e1, e2⟩

theorem walkNode_branch_ok (rw : Str → Except JsError Str) (sel : Bool) (t : Str)
    (cs : List Node) (n1 : Node) (h : walkNode rw sel (.branch t cs) = .ok n1) :
    ∃ cs1, n1 = .branch t cs1
      ∧ walkChildren rw
          (sel || (decide (t = "atrule".toList) && anyOfType "atkeyword".toList cs))
          (firstChildIsImport cs) cs = .ok cs1 := by
  rw [walkNode] at h
  split at h
  · cases h
  · rename_i cs1 hcs1
    cases h
    exact ⟨cs1, rfl, hcs1⟩

theorem anyOfType_of_head (ty v : Str) (cs : List Node) :
    anyOfType ty (.leaf ty v :: cs) = true := by
  simp [anyOfType, Node.type]

theorem nodeAt_branch_cons (t : Str) (cs : List Node) (i : Nat) (is : List Nat) (c : Node)
    (h : cs[i]? = some c) : nodeAt (.branch t cs) (i :: is) = nodeAt c is := by
  simp only [nodeAt, Node.children, h]

theorem nodeAt_cons_some (t : Node) (i : Nat) (is : List Nat) (n : Node)
    (h : nodeAt t (i :: is) = some n) :
    ∃ ty cs c, t = .branch ty cs ∧ cs[i]? = some c ∧ nodeAt c is = some n := by
  cases t with
  | leaf ty v => simp [nodeAt, Node.children] at h
  | branch ty cs =>
    cases hk : cs[i]? with
    | none => simp [nodeAt, Node.children, hk] at h
    | some c =>
      rw [nodeAt_branch_cons ty cs i is c hk] at h
      exact ⟨ty, cs, c, rfl, hk, h⟩

theorem nodeAt_leaf_some (ty v : Str) (p : List Nat) (n : Node)
    (h : nodeAt (.leaf ty v) p = some n) : p = [] ∧ n = .leaf ty v := by
  cases p with
  | nil => simp only [nodeAt, Option.some.injEq] at h; exact ⟨rfl, h.symm⟩
  | cons a b => simp [nodeAt, Node.children] at h

/-- The walk at the position of a double-quoted string that is a direct child of
an `@import` at-rule. -/
theorem walkNode_import_string (rw : Str → Except JsError Str) (p : List Nat) :
    ∀ (sel : Bool) (t t1 : Node) (rest : List Node) (i : Nat) (v : Str),
      walkNode rw sel t = .ok t1 →
      nodeAt t p = some (.branch "atrule".toList
        (.leaf "atkeyword".toList "import".toList :: rest)) →
      (Node.leaf "atkeyword".toList "import".toList :: rest)[i]?
        = some (.leaf "string_double".toList v) →
      ∃ o, rw v = .ok o ∧ nodeAt t1 (p ++ [i]) = some (.leaf "string_double".toList o) := by
  induction p with
  | nil =>
    intro sel t t1 rest i v hw hat hi
    simp only [nodeAt, Option.some.injEq] at hat
    subst hat
    obtain ⟨cs1, rfl, hcs⟩ := walkNode_branch_ok rw sel _ _ t1 hw
    obtain ⟨c1, hg, hc⟩ := walkChildren_get rw _ _ _ cs1 hcs i _ hi
    have hany : anyOfType "atkeyword".toList
        (Node.leaf "atkeyword".toList "import".toList :: rest) = true :=
      anyOfType_of_head _ _ _
    have himp : firstChildIsImport
        (Node.leaf "atkeyword".toList "import".toList :: rest) = true := by
      simp [firstChildIsImport]
    rw [hany, himp] at hc
    simp only [Node.type, decide_True, Bool.and_true, Bool.or_true, if_true,
      importCallback] at hc
    split at hc
    · cases hc
    · rename_i o ho
      cases hc
      refine ⟨o, ho, ?_⟩
      rw [List.nil_append, nodeAt_branch_cons _ _ _ _ _ hg]
      rfl
  | cons j q ih =>
    intro sel t t1 rest i v hw hat hi
    obtain ⟨ty, kids, c, rfl, hk, hat1⟩ := nodeAt_cons_some t j q _ hat
    obtain ⟨kids1, rfl, hkids⟩ := walkNode_branch_ok rw sel _ _ t1 hw
    obtain ⟨c1, hg, hc⟩ := walkChildren_get rw _ _ _ kids1 hkids j c hk
    have hstep : ∃ s2, walkNode rw s2 c = .ok c1 := by
      split at hc
      · -- a replaced child is a token, and no at-rule lies below a token
        cases c with
        | leaf cty cval => cases (nodeAt_leaf_some cty cval q _ hat1).2
        | branch cty ckids => simp [importCallback] at hc
      · exact ⟨_, hc⟩
    obtain ⟨s2, hs2⟩ := hstep
    obtain ⟨o, ho, hn⟩ := ih s2 c c1 rest i v hs2 hat1 hi
    refine ⟨o, ho, ?_⟩
    rw [List.cons_append, nodeAt_branch_cons _ _ _ _ _ hg]
    exact hn

/-- Tokens that are not double-quoted strings keep their type and value. -/
theorem walkNode_other_token (rw : Str → Except JsError Str) (p : List Nat) :
    ∀ (sel : Bool) (t t1 : Node) (ty v : Str),
      walkNode rw sel t = .ok t1 →
      nodeAt t p = some (.leaf ty v) → ty ≠ "string_double".toList →
      nodeAt t1 p = some (.leaf ty v) := by
  induction p with
  | nil =>
    intro sel t t1 ty v hw hat _
    simp only [nodeAt, Option.some.injEq] at hat
    subst hat
    rw [walkNode] at hw
    cases hw
    rfl
  | cons j q ih =>
    intro sel t t1 ty v hw hat hty
    obtain ⟨bty, kids, c, rfl, hk, hat1⟩ := nodeAt_cons_some t j q _ hat
    obtain ⟨kids1, rfl, hkids⟩ := walkNode_branch_ok rw sel _ _ t1 hw
    obtain ⟨c1, hg, hc⟩ := walkChildren_get rw _ _ _ kids1 hkids j c hk
    rw [nodeAt_branch_cons _ _ _ _ _ hg]
    split at hc
    · rename_i hcond
      cases c with
      | leaf cty cval =>
        have e := (nodeAt_leaf_some cty cval q _ hat1).2
        cases e
        simp only [Node.type, Bool.and_eq_true, decide_eq_true_eq] at hcond
        exact absurd hcond.1.2 hty
      | branch cty ckids => simp [importCallback] at hc
    · exact ih _ c c1 ty v hc hat1 hty

mutual
/-- The walk returns whenever the rewriter succeeds on every double-quoted
string of a tree whose string nodes are tokens. -/
theorem walkNode_total (rw : Str → Except JsError Str) :
    ∀ (t : Node) (sel : Bool), stringsAreTokens t = true →
      (∀ v ∈ stringValues t, ∃ o, rw v = .ok o) → ∃ t1, walkNode rw sel t = .ok t1
  | .leaf ty v, sel, _, _ => ⟨.leaf ty v, by rw [walkNode]⟩
  | .branch ty cs, sel, hwf, hv => by
    rw [stringsAreTokens, Bool.and_eq_true] at hwf
    rw [stringValues] at hv
    obtain ⟨cs1, h⟩ := walkChildren_total rw cs
      (sel || (decide (ty = "atrule".toList) && anyOfType "atkeyword".toList cs))
      (firstChildIsImport cs) hwf.2 hv
    exact ⟨.branch ty cs1, by rw [walkNode]; simp only [h]⟩
/-- The same for the children of one parent. -/
theorem walkChildren_total (rw : Str → Except JsError Str) :
    ∀ (cs : List Node) (sel imp : Bool), stringsAreTokensAll cs = true →
      (∀ v ∈ stringValuesAll cs, ∃ o, rw v = .ok o) →
      ∃ cs1, walkChildren rw sel imp cs = .ok cs1
  | [], sel, imp, _, _ => ⟨[], by rw [walkChildren]⟩
  | c :: cs, sel, imp, hwf, hv => by
    rw [stringsAreTokensAll, Bool.and_eq_true] at hwf
    rw [stringValuesAll] at hv
    obtain ⟨cs1, h⟩ := walkChildren_total rw cs sel imp hwf.2
      (fun v hm => hv v (List.mem_append_right _ hm))
    obtain ⟨c0, h0⟩ := walkNode_total rw c sel hwf.1
      (fun v hm => hv v (List.mem_append_left _ hm))
    have hc : ∃ c1, (if (sel && decide (c.type = "string_double".toList) && imp) = true then
        importCallback rw c else walkNode rw sel c) = .ok c1 := by
      split
      · rename_i hcond
        cases c with
        | leaf cty cval =>
          simp only [Node.type, Bool.and_eq_true, decide_eq_true_eq] at hcond
          obtain ⟨o, ho⟩ := hv cval (by simp [stringValues, hcond.1.2])
          exact ⟨.leaf "string_double".toList o, by simp [importCallback, ho]⟩
        | branch cty ckids =>
          simp only [Node.type, Bool.and_eq_true, decide_eq_true_eq] at hcond
          simp [stringsAreTokens, hcond.1.2] at hwf
      · exact ⟨c0, h0⟩
    obtain ⟨c1, h1⟩ := hc
    exact ⟨c1 :: cs1, by rw [walkChildren]; simp only [h1, h]⟩
end

/-! ### The file driver -/

theorem transform_ok (env : Env) (fs : FileSystem) (f rootDir src out : Str)
    (h1 : fs f = some src) (h2 : transformText env src f rootDir = .ok out) :
    transform env fs f rootDir
      = (writeFile fs f out,
          [.read f, .wrote f, .stdout ("[rewrite] ".toList ++ f)], .ok ()) := by
  simp only [transform, h1, h2]

theorem transform_error (env : Env) (fs : FileSystem) (f rootDir src : Str) (e : JsError)
    (h1 : fs f = some src) (h2 : transformText env src f rootDir = .error e) :
    transform env fs f rootDir = (fs, [.read f], .error e) := by
  simp only [transform, h1, h2]

theorem transform_frame (env : Env) (fs : FileSystem) (f rootDir p : Str) (hp : p ≠ f) :
    (transform env fs f rootDir).1 p = fs p := by
  unfold transform
  split
  · rfl
  · split
    · rfl
    · simp [writeFile, hp]

theorem transformAll_cons_ok (env : Env) (rootDir : Str) (fs fs1 : FileSystem) (f : Str)
    (files : List Str) (ev : List Event)
    (h : transform env fs f rootDir = (fs1, ev, .ok ())) :
    transformAll env rootDir fs (f :: files)
      = ((transformAll env rootDir fs1 files).1,
          ev ++ (transformAll env rootDir fs1 files).2.1,
          (transformAll env rootDir fs1 files).2.2) := by
  rw [transformAll]
  simp only [h]

theorem transformAll_cons_error (env : Env) (rootDir : Str) (fs fs1 : FileSystem) (f : Str)
    (files : List Str) (ev : List Event) (e : JsError)
    (h : transform env fs f rootDir = (fs1, ev, .error e)) :
    transformAll env rootDir fs (f :: files) = (fs1, ev, .error e) := by
  rw [transformAll]
  simp only [h]

theorem transformAll_frame (env : Env) (rootDir : Str) (files : List Str) :
    ∀ (fs : FileSystem) (p : Str), p ∉ files →
      (transformAll env rootDir fs files).1 p = fs p := by
  induction files with
  | nil => intro fs p _; rfl
  | cons f files ih =>
    intro fs p hp
    have hpf : p ≠ f := fun e => hp (by simp [e])
    have hpfs : p ∉ files := fun e => hp (by simp [e])
    have hfr := transform_frame env fs f rootDir p hpf
    rcases hres : transform env fs f rootDir with ⟨fs1, ev, r⟩
    rw [hres] at hfr
    cases r with
    | error e => rw [transformAll_cons_error env rootDir fs fs1 f files ev e hres]; exact hfr
    | ok u =>
      cases u
      rw [transformAll_cons_ok env rootDir fs fs1 f files ev hres]
      exact (ih fs1 p hpfs).trans hfr

/-- The batch of line 82 when the file after `pre` is the first to fail. -/
theorem transformAll_first_failure (env : Env) (rootDir : Str) (fk : Str) (post : List Str)
    (e : JsError) (pre : List Str) :
    ∀ (fs : FileSystem), (pre ++ fk :: post).Nodup →
      (∀ f ∈ pre, ∃ src out, fs f = some src ∧ transformText env src f rootDir = .ok out) →
      (∃ src, fs fk = some src ∧ transformText env src fk rootDir = .error e) →
      (transformAll env rootDir fs (pre ++ fk :: post)).2.2 = .error e
        ∧ (∀ f ∈ pre, ∃ src out, fs f = some src
            ∧ transformText env src f rootDir = .ok out
            ∧ (transformAll env rootDir fs (pre ++ fk :: post)).1 f = some out)
        ∧ (∀ p, p ∉ pre → (transformAll env rootDir fs (pre ++ fk :: post)).1 p = fs p)
        ∧ (∀ p, Event.wrote p ∈ (transformAll env rootDir fs (pre ++ fk :: post)).2.1
            ↔ p ∈ pre) := by
  induction pre with
  | nil =>
    intro fs _ _ hfail
    obtain ⟨src, h1, h2⟩ := hfail
    have hres := transform_error env fs fk rootDir src e h1 h2
    rw [List.nil_append, transformAll_cons_error env rootDir fs fs fk post _ e hres]
    exact ⟨rfl, by simp, fun p _ => rfl, by simp⟩
  | cons f pre ih =>
    intro fs hnd hpre hfail
    obtain ⟨src, out, h1, h2⟩ := hpre f (by simp)
    have hres := transform_ok env fs f rootDir src out h1 h2
    rw [List.cons_append] at hnd ⊢
    have hfnot : f ∉ pre ++ fk :: post := (List.nodup_cons.mp hnd).1
    have hnd1 : (pre ++ fk :: post).Nodup := (List.nodup_cons.mp hnd).2
    have hother : ∀ g ∈ pre ++ fk :: post, writeFile fs f out g = fs g := by
      intro g hg
      have : g ≠ f := fun e => hfnot (e ▸ hg)
      simp [writeFile, this]
    have hpre1 : ∀ g ∈ pre, ∃ src out1, writeFile fs f out g = some src
        ∧ transformText env src g rootDir = .ok out1 := by
      intro g hg
      obtain ⟨s, o, e1, e2⟩ := hpre g (by simp [hg])
      exact ⟨s, o, by rw [hother g (by simp [hg])]; exact e1, e2⟩
    have hfail1 : ∃ src, writeFile fs f out fk = some src
        ∧ transformText env src fk rootDir = .error e := by
      obtain ⟨s, e1, e2⟩ := hfail
      exact ⟨s, by rw [hother fk (by simp)]; exact e1, e2⟩
    obtain ⟨r1, r2, r3, r4⟩ := ih (writeFile fs f out) hnd1 hpre1 hfail1
    rw [transformAll_cons_ok env rootDir fs _ f _ _ hres]
    refine ⟨r1, ?_, ?_, ?_⟩
    · intro g hg
      simp only [List.mem_cons] at hg
      rcases hg with rfl | hg
      · refine ⟨src, out, h1, h2, ?_⟩
        show (transformAll env rootDir (writeFile fs g out) (pre ++ fk :: post)).1 g = some out
        rw [transformAll_frame env rootDir _ _ g hfnot]
        simp [writeFile]
      · obtain ⟨s, o, e1, e2, e3⟩ := r2 g hg
        exact ⟨s, o, by rw [← hother g (by simp [hg])]; exact e1, e2, e3⟩
    · intro p hp
      have hpf : p ≠ f := fun e => hp (by simp [e])
      have hpp : p ∉ pre := fun e => hp (by simp [e])
      show (transformAll env rootDir (writeFile fs f out) (pre ++ fk :: post)).1 p = fs p
      rw [r3 p hpp]
      simp [writeFile, hpf]
    · intro p
      show Event.wrote p ∈ [Event.read f, Event.wrote f, Event.stdout ("[rewrite] ".toList ++ f)]
          ++ (transformAll env rootDir (writeFile fs f out) (pre ++ fk :: post)).2.1 ↔ _
      simp only [List.mem_append, r4 p, List.mem_cons]
      simp [eq_comm]

theorem transform_no_stderr (env : Env) (fs : FileSystem) (f rootDir msg : Str) :
    Event.stderr msg ∉ (transform env fs f rootDir).2.1 := by
  unfold transform
  split
  · simp
  · split <;> simp

theorem transformAll_no_stderr (env : Env) (rootDir msg : Str) (files : List Str) :
    ∀ fs : FileSystem, Event.stderr msg ∉ (transformAll env rootDir fs files).2.1 := by
  induction files with
  | nil => intro fs; simp [transformAll]
  | cons f files ih =>
    intro fs
    have h0 := transform_no_stderr env fs f rootDir msg
    rcases hres : transform env fs f rootDir with ⟨fs1, ev, r⟩
    rw [hres] at h0
    cases r with
    | error e => rw [transformAll_cons_error env rootDir fs fs1 f files ev e hres]; exact h0
    | ok u =>
      cases u
      rw [transformAll_cons_ok env rootDir fs fs1 f files ev hres]
      simp only [List.mem_append, not_or]
      exact ⟨h0, ih fs1⟩

theorem main_with_root (env : Env) (argv : List Str) (fs : FileSystem) (arg : Str)
    (harg : argv.get? 2 = some arg) :
    main env argv fs
      = ((transformAll env (resolve env.cwd [arg]) fs
            (env.glob fs (resolve env.cwd [arg] ++ "/**/*.scss".toList))).1,
          .globbed (resolve env.cwd [arg] ++ "/**/*.scss".toList)
            :: (transformAll env (resolve env.cwd [arg]) fs
                (env.glob fs (resolve env.cwd [arg] ++ "/**/*.scss".toList))).2.1,
          match (transformAll env (resolve env.cwd [arg]) fs
              (env.glob fs (resolve env.cwd [arg] ++ "/**/*.scss".toList))).2.2 with
          | .error e => .threw e
          | .ok _ => .completed) := by
  have hlen : ¬ argv.length < 3 := by
    intro h
    have : argv.get? 2 = none := by
      rw [List.get?_eq_none]; omega
    rw [this] at harg
    cases harg
  unfold main
  simp only [hlen, if_false, harg]
  rcases transformAll env (resolve env.cwd [arg]) fs
      (env.glob fs (resolve env.cwd [arg] ++ "/**/*.scss".toList)) with ⟨fs1, ev, r⟩
  cases r <;> rfl

theorem main_short_argv (env : Env) (argv : List Str) (fs : FileSystem)
    (h : argv.length < 3) :
    main env argv fs = (fs, [.stderr "Missing root directory path".toList], .exited 1) := by
  simp [main, h]

theorem main_long_argv (env : Env) (argv : List Str) (fs : FileSystem)
    (h : 3 ≤ argv.length) :
    (∀ code, (main env argv fs).2.2 ≠ .exited code)
      ∧ ∀ msg, Event.stderr msg ∉ (main env argv fs).2.1 := by
  have harg : ∃ arg, argv.get? 2 = some arg := by
    cases hg : argv.get? 2 with
    | none => rw [List.get?_eq_none] at hg; omega
    | some a => exact ⟨a, rfl⟩
  obtain ⟨arg, harg⟩ := harg
  rw [main_with_root env argv fs arg harg]
  constructor
  · intro code hcode
    dsimp only at hcode
    split at hcode <;> cases hcode
  · intro msg hm
    simp only [List.mem_cons] at hm
    rcases hm with hm | hm
    · cases hm
    · exact transformAll_no_stderr env _ msg _ fs hm

/-! ### The module-name conversion, character by character -/

theorem kebabToCamel_eq_convertBySpec (m : Str) :
    ∀ prev : Option Char, (prev = some '-' → (m.head?.map isLowerAZ) ≠ some true) →
      kebabToCamel m = convertBySpec prev m := by
  induction m using kebabToCamel.induct with
  | case1 => intro _ _; rfl
  | case2 c =>
    intro prev h
    have h2 : ¬ (prev = some '-' ∧ isLowerAZ c = true) := by
      rintro ⟨h3, h4⟩
      exact h h3 (by simp [h4])
    simp [kebabToCamel, convertBySpec, h2]
  | case3 c d rest hcd ih =>
    intro prev h
    obtain ⟨hc, hd⟩ := hcd
    have hdne : d ≠ '-' := isLowerAZ_ne_hyphen d hd
    have e := ih (some d) (fun h3 => absurd (Option.some.inj h3) hdne)
    simp [kebabToCamel, convertBySpec, hc, hd, hdne, e]
  | case4 c d rest hcd ih =>
    intro prev h
    have h2 : ¬ (prev = some '-' ∧ isLowerAZ c = true) := by
      rintro ⟨h3, h4⟩
      exact h h3 (by simp [h4])
    have e := ih (some c) (by
      intro h3
      have hc : c = '-' := Option.some.inj h3
      intro h4
      apply hcd
      refine ⟨hc, ?_⟩
      simpa using h4)
    have h5 : ¬ (c = '-' ∧ isLowerAZ d = true) := hcd
    simp only [kebabToCamel, hcd, if_false, convertBySpec, List.head?_cons, Option.map_some',
      Option.some.injEq, h5, h2, List.singleton_append, e]

theorem kebabToCamel_hyphen_iff (m : Str) :
    '-' ∈ kebabToCamel m ↔
      ∃ pre post, m = pre ++ '-' :: post ∧ (post.head?.map isLowerAZ) ≠ some true := by
  induction m using kebabToCamel.induct with
  | case1 => simp [kebabToCamel]
  | case2 c =>
    constructor
    · intro h
      simp only [kebabToCamel, List.mem_singleton] at h
      exact ⟨[], [], by simp [← h], by simp⟩
    · rintro ⟨pre, post, e, _⟩
      cases pre with
      | nil =>
        simp only [List.nil_append, List.cons.injEq] at e
        simp [kebabToCamel, e.1]
      | cons x xs =>
        simp only [List.cons_append, List.cons.injEq] at e
        cases xs <;> simp at e
  | case3 c d rest hcd ih =>
    obtain ⟨hc, hd⟩ := hcd
    have hdne : d ≠ '-' := isLowerAZ_ne_hyphen d hd
    have hup : d.toUpper ≠ '-' := toUpper_lower_ne_hyphen d hd
    simp only [kebabToCamel, hc, hd, and_self, if_true, List.mem_cons]
    constructor
    · rintro (h | h)
      · exact absurd h.symm hup
      · obtain ⟨pre, post, e, hp⟩ := ih.mp h
        exact ⟨c :: d :: pre, post, by simp [e, hc], hp⟩
    · rintro ⟨pre, post, e, hp⟩
      right
      apply ih.mpr
      cases pre with
      | nil =>
        simp only [List.nil_append, List.cons.injEq] at e
        exfalso
        apply hp
        rw [← e.2]
        simp [hd]
      | cons x xs =>
        simp only [List.cons_append, List.cons.injEq] at e
        cases xs with
        | nil =>
          simp only [List.nil_append, List.cons.injEq] at e
          exact absurd e.2.1 hdne
        | cons y ys =>
          simp only [List.cons_append, List.cons.injEq] at e
          exact ⟨ys, post, e.2.2, hp⟩
  | case4 c d rest hcd ih =>
    simp only [kebabToCamel, hcd, if_false, List.mem_cons]
    constructor
    · rintro (h | h)
      · refine ⟨[], d :: rest, by simp [← h], ?_⟩
        intro h4
        apply hcd
        exact ⟨h.symm, by simpa using h4⟩
      · obtain ⟨pre, post, e, hp⟩ := ih.mp h
        exact ⟨c :: pre, post, by simp [e], hp⟩
    · rintro ⟨pre, post, e, hp⟩
      cases pre with
      | nil =>
        simp only [List.nil_append, List.cons.injEq] at e
        left; exact e.1.symm
      | cons x xs =>
        simp only [List.cons_append, List.cons.injEq] at e
        right
        exact ih.mpr ⟨xs, post, e.2, hp⟩

/-! ### The first occurrence of the marker -/

theorem getSubstitution_cons_plain (matched before after : Str) (c : Char) (cs : Str)
    (h : c ≠ '$') :
    getSubstitution matched before after (c :: cs)
      = c :: getSubstitution matched before after cs := by
  cases cs with
  | nil => rfl
  | cons d ds => simp [getSubstitution, h]

theorem getSubstitution_plain (matched before after : Str) (r : Str) (h : '$' ∉ r) :
    getSubstitution matched before after r = r := by
  induction r with
  | nil => rfl
  | cons c cs ih =>
    have hc : c ≠ '$' := fun e => h (by simp [e])
    rw [getSubstitution_cons_plain _ _ _ _ _ hc, ih (fun hm => h (List.mem_cons_of_mem _ hm))]

theorem findSub_cons_hit (pat : Str) (c : Char) (cs : Str)
    (h : pat.isPrefixOf (c :: cs) = true) :
    findSub pat (c :: cs) = some ([], (c :: cs).drop pat.length) := by
  rw [findSub]; simp only [h, if_true]

theorem findSub_cons_miss (pat : Str) (c : Char) (cs : Str)
    (h : ¬ pat.isPrefixOf (c :: cs) = true) :
    findSub pat (c :: cs) = (findSub pat cs).map fun p => (c :: p.1, p.2) := by
  rw [findSub]; simp [h]

/-- The first occurrence of a non-empty pattern: the text before it, followed by
all of the pattern but its last character, does not contain the pattern. -/
theorem findSub_first (pat : Str) (hpat : pat ≠ []) (b a : Str)
    (hfirst : ¬ pat <:+: b ++ pat.dropLast) :
    findSub pat (b ++ pat ++ a) = some (b, a) := by
  induction b with
  | nil =>
    cases pat with
    | nil => exact absurd rfl hpat
    | cons x xs =>
      have hp : (x :: xs).isPrefixOf (x :: (xs ++ a)) = true :=
        List.isPrefixOf_iff_prefix.mpr ⟨a, rfl⟩
      show findSub (x :: xs) (x :: (xs ++ a)) = some ([], a)
      rw [findSub_cons_hit _ _ _ hp]
      have : List.drop (x :: xs).length (x :: (xs ++ a)) = a :=
        List.drop_left (x :: xs) a
      rw [this]
  | cons c cs ih =>
    have hnp : ¬ pat.isPrefixOf (c :: (cs ++ pat ++ a)) = true := by
      intro hp
      have h1 : pat <+: c :: (cs ++ pat ++ a) := List.isPrefixOf_iff_prefix.mp hp
      have h2 : (c :: cs ++ pat.dropLast) <+: c :: (cs ++ pat ++ a) := by
        refine ⟨pat.drop (pat.length - 1) ++ a, ?_⟩
        rw [List.dropLast_eq_take]
        simp only [List.cons_append, List.append_assoc]
        rw [← List.append_assoc (List.take _ pat), List.take_append_drop]
      have hlen : pat.length ≤ (c :: cs ++ pat.dropLast).length := by
        simp only [List.cons_append, List.length_cons, List.length_append,
          List.length_dropLast]
        have : 0 < pat.length := List.length_pos.mpr hpat
        omega
      exact hfirst (List.prefix_of_prefix_length_le h1 h2 hlen).isInfix
    have hrec : ¬ pat <:+: cs ++ pat.dropLast := fun hi =>
      hfirst (hi.trans (List.suffix_cons c _).isInfix)
    show findSub pat (c :: (cs ++ pat ++ a)) = some (c :: cs, a)
    rw [findSub_cons_miss _ _ _ hnp, ih hrec]
    rfl

theorem replaceFirst_first (pat r b a : Str) (hpat : pat ≠ []) (hr : '$' ∉ r)
    (hfirst : ¬ pat <:+: b ++ pat.dropLast) :
    replaceFirst pat r (b ++ pat ++ a) = b ++ r ++ a := by
  simp only [replaceFirst, findSub_first pat hpat b a hfirst, getSubstitution_plain _ _ _ r hr]

/-- A text that contains the pattern splits at its first occurrence. -/
theorem exists_first_occurrence (pat : Str) (s : Str) (h : pat <:+: s) :
    ∃ b a, s = b ++ pat ++ a ∧ findSub pat s = some (b, a) := by
  induction s with
  | nil =>
    have : pat = [] := List.eq_nil_of_infix_nil h
    subst this
    exact ⟨[], [], rfl, by simp [findSub]⟩
  | cons c cs ih =>
    by_cases hp : pat.isPrefixOf (c :: cs) = true
    · obtain ⟨t, ht⟩ := List.isPrefixOf_iff_prefix.mp hp
      refine ⟨[], t, by simp [ht], ?_⟩
      rw [findSub_cons_hit _ _ _ hp, ← ht, List.drop_left]
    · have hcs : pat <:+: cs := by
        obtain ⟨u, v, e⟩ := h
        cases u with
        | nil =>
          exfalso
          apply hp
          exact List.isPrefixOf_iff_prefix.mpr ⟨v, by simpa using e⟩
        | cons x xs =>
          simp only [List.cons_append, List.cons.injEq] at e
          exact ⟨xs, v, e.2⟩
      obtain ⟨b, a, e1, e2⟩ := ih hcs
      refine ⟨c :: b, a, by simp [e1], ?_⟩
      rw [findSub_cons_miss _ _ _ hp, e2]
      rfl

theorem pathSegments_mem (p s : Str) (h : s ∈ pathSegments p) : s ≠ [] ∧ '/' ∉ s := by
  simp only [pathSegments, List.mem_filter, decide_eq_true_eq] at h
  exact ⟨h.2, splitSlash_mem_noSlash _ s h.1⟩

theorem relative_not_absolute (cwd frm dest : Str) :
    isAbsolute (relative cwd frm dest) = false := by
  unfold relative
  split
  · rfl
  · simp only
    split
    · rfl
    · apply isAbsolute_joinSlash_false
      intro s hs
      simp only [List.mem_append] at hs
      rcases hs with hs | hs
      · rw [List.eq_of_mem_replicate hs]; decide
      · obtain ⟨c, _, e2⟩ := dropCommon_spec (pathSegments (resolve cwd [frm]))
          (pathSegments (resolve cwd [dest]))
        exact pathSegments_mem (resolve cwd [dest]) s (by rw [e2]; simp [hs])

theorem resolveImportSource_cases (cwd s1 f r : Str) :
    (isAbsolute s1 = false ∧ resolveImportSource cwd s1 f r = s1)
      ∨ (isAbsolute s1 = true
        ∧ resolveImportSource cwd s1 f r = relative cwd (dirname f) (pathToImport s1 r)) := by
  unfold resolveImportSource
  by_cases h : isAbsolute s1 = true
  · right; simp [h]
  · left; simp only [h, if_false]; simp [h]

theorem joinSlash_cons_tail (x : Str) (post : List Str) :
    joinSlash (x :: post) = x ++ joinSlash ([] :: post) := by
  cases post <;> simp [joinSlash]

theorem joinSlash_append_cons (pre : List Str) (x : Str) (post : List Str) (hpre : pre ≠ []) :
    joinSlash (pre ++ x :: post) = joinSlash pre ++ '/' :: joinSlash (x :: post) := by
  induction pre with
  | nil => exact absurd rfl hpre
  | cons p ps ih =>
    cases ps with
    | nil => simp [joinSlash]
    | cons q qs =>
      have h2 : joinSlash (q :: (qs ++ x :: post))
          = joinSlash (q :: qs) ++ '/' :: joinSlash (x :: post) := ih (by simp)
      show p ++ '/' :: joinSlash (q :: (qs ++ x :: post))
        = (p ++ '/' :: joinSlash (q :: qs)) ++ '/' :: joinSlash (x :: post)
      rw [h2]
      simp

/-- The substitution of line 120 when the first occurrence of the marker is a
whole segment. -/
theorem pathToImport_segment (r : Str) (pre post : List Str) (hr : '$' ∉ r)
    (hpre : ∀ x ∈ pre, ¬ atMaterial <:+: x) :
    pathToImport (joinSlash (pre ++ atMaterial :: post)) r = joinSlash (pre ++ r :: post) := by
  have hpat : atMaterial ≠ [] := by decide
  cases hp : pre with
  | nil =>
    simp only [List.nil_append]
    rw [joinSlash_cons_tail atMaterial, joinSlash_cons_tail r, pathToImport]
    have := replaceFirst_first atMaterial r [] (joinSlash ([] :: post)) hpat hr (by decide)
    simpa using this
  | cons p ps =>
    rw [← hp]
    have hne : pre ≠ [] := by rw [hp]; simp
    rw [joinSlash_append_cons pre _ post hne, joinSlash_append_cons pre _ post hne,
      joinSlash_cons_tail atMaterial, joinSlash_cons_tail r, pathToImport]
    have hfirst : ¬ atMaterial <:+: (joinSlash pre ++ ['/']) ++ atMaterial.dropLast := by
      intro hi
      have e : (joinSlash pre ++ ['/']) ++ atMaterial.dropLast
          = joinSlash (pre ++ [atMaterial.dropLast]) := by
        rw [joinSlash_append_cons pre _ [] hne]
        simp [joinSlash]
      rw [e] at hi
      obtain ⟨x, hx, hix⟩ := infix_joinSlash atMaterial _ (by simp) (by decide) hi
      simp only [List.mem_append, List.mem_singleton] at hx
      rcases hx with hx | rfl
      · exact hpre x hx hix
      · revert hix; decide
    have := replaceFirst_first atMaterial r (joinSlash pre ++ ['/']) (joinSlash ([] :: post))
      hpat hr hfirst
    simpa using this

theorem candidateBySegments_single (r : Str) (pre post : List Str)
    (hslash : ∀ x ∈ pre ++ post, '/' ∉ x)
    (hother : ∀ x ∈ pre ++ post, ¬ atMaterial <:+: x) :
    candidateBySegments (joinSlash (pre ++ atMaterial :: post)) r
      = joinSlash (pre ++ r :: post) := by
  have hsplit : splitSlash (joinSlash (pre ++ atMaterial :: post))
      = pre ++ atMaterial :: post := by
    apply splitSlash_joinSlash _ (by simp)
    intro x hx
    simp only [List.mem_append, List.mem_cons] at hx
    rcases hx with hx | rfl | hx
    · exact hslash x (by simp [hx])
    · decide
    · exact hslash x (by simp [hx])
  have hmap : ∀ l : List Str, (∀ x ∈ l, ¬ atMaterial <:+: x) →
      l.map (fun seg => if seg = atMaterial then r else seg) = l := by
    intro l hl
    induction l with
    | nil => rfl
    | cons y ys ih =>
      have hy : ¬ y = atMaterial := fun e => hl y (by simp) (e ▸ List.infix_refl _)
      simp only [List.map_cons, hy, if_false]
      rw [ih (fun x hx => hl x (by simp [hx]))]
  unfold candidateBySegments
  rw [hsplit, List.map_append, List.map_cons, hmap pre (fun x hx => hother x (by simp [hx])),
    hmap post (fun x hx => hother x (by simp [hx]))]
  simp

/-! ## The claims -/

/-- C1 (amended): for an absolute root directory `r`, any source file `f` and an
internal import `@material/<m>/<rest...>` with kebab-case `m`, provided neither `r`
nor any remaining segment contains the text `@material`,
`rewriteImportDeclaration` returns the path of `r/<camelCase(m)>/<rest...>`
relative to the directory containing `f`. -/
theorem rewrite_internal_import_relative (cwd r f : Str) (ws rest : List Str)
    (hr : isAbsolute r = true)
    (hws : KebabWords ws) (hrest : ∀ s ∈ rest, '/' ∉ s)
    (hr2 : ¬ atMaterial <:+: r) (hrest2 : ∀ s ∈ rest, ¬ atMaterial <:+: s) :
    rewriteImportDeclaration cwd (joinSlash (atMaterial :: joinHyphen ws :: rest)) f r
      = .ok (relative cwd (dirname f) (joinSlash ((r ++ '/' :: camelCase ws) :: rest))) :=
  rewrite_internal_clean cwd r f ws rest hr hws hrest hr2 hrest2

/-- Witness for C1 (amended): the example of the claim,
`rewriteImportDeclaration('@material/foo-bar/file', '/root/pkg/a.scss', '/root')`
is `'../fooBar/file'`. -/
theorem rewrite_internal_import_relative_witness :
    rewriteImportDeclaration "/".toList "@material/foo-bar/file".toList
      "/root/pkg/a.scss".toList "/root".toList = .ok "../fooBar/file".toList :=
  rewrite_internal_import_relative "/".toList "/root".toList "/root/pkg/a.scss".toList
    ["foo".toList, "bar".toList] ["file".toList] (by decide)
    (by unfold KebabWords; decide) (by decide) (by decide) (by decide)

/-- Counterexample to C1 as stated: with the root directory `/n/@material` (an
absolute path that itself contains the marker) the import
`@material/foo-bar/file` of `/n/@material/pkg/a.scss` is rewritten to
`../../n/@material/fooBar/file`, which is not the path of
`/n/@material/fooBar/file` relative to `/n/@material/pkg` (that is
`../fooBar/file`). -/
theorem rewrite_internal_import_counterexample :
    rewriteImportDeclaration "/".toList "@material/foo-bar/file".toList
        "/n/@material/pkg/a.scss".toList "/n/@material".toList
      = .ok "../../n/@material/fooBar/file".toList
    ∧ relative "/".toList (dirname "/n/@material/pkg/a.scss".toList)
        (joinSlash [("/n/@material".toList ++ '/' :: camelCase ["foo".toList, "bar".toList]),
          "file".toList])
      = "../fooBar/file".toList
    ∧ rewriteImportDeclaration "/".toList "@material/foo-bar/file".toList
        "/n/@material/pkg/a.scss".toList "/n/@material".toList
      ≠ .ok (relative "/".toList (dirname "/n/@material/pkg/a.scss".toList)
        (joinSlash [("/n/@material".toList ++ '/' :: camelCase ["foo".toList, "bar".toList]),
          "file".toList])) := by
  decide

/-- C2: for an import source `@material/<m>/<rest...>` whose module name `m` is
made of non-empty lowercase words joined by single hyphens, step 1 of
`rewriteImportDeclaration` yields exactly `rootDir + '/' + camelCase(m)` followed
by the remaining segments, unchanged (hyphens included) and joined by `/`, and
`camelCase(m)` contains no hyphen. -/
theorem step1_module_segment_camelCase (rootDir : Str) (ws rest : List Str)
    (hws : KebabWords ws) (hrest : ∀ s ∈ rest, '/' ∉ s) :
    rewrittenImportSource (joinSlash (atMaterial :: joinHyphen ws :: rest)) rootDir
        = .ok (joinSlash ((rootDir ++ '/' :: camelCase ws) :: rest))
      ∧ '-' ∉ camelCase ws :=
  ⟨rewrittenImportSource_internal rootDir ws rest hws hrest,
    fun h => absurd (camelCase_isAlpha ws hws _ h) (by decide)⟩

/-- Witness for C2: `@material/foo-bar/baz` with root `/root` gives
`/root/fooBar/baz`. -/
theorem step1_module_segment_camelCase_witness :
    rewrittenImportSource "@material/foo-bar/baz".toList "/root".toList
        = .ok "/root/fooBar/baz".toList
      ∧ '-' ∉ "fooBar".toList :=
  step1_module_segment_camelCase "/root".toList ["foo".toList, "bar".toList]
    ["baz".toList] (by unfold KebabWords; decide) (by decide)

/-- C3: an import source whose first `/`-separated segment is not `@material`
and which is not an absolute path is returned unchanged, whatever the source
file and the root directory. -/
theorem rewrite_foreign_relative_unchanged (cwd importSource srcFile rootDir : Str)
    (hfirst : (splitSlash importSource).head? ≠ some atMaterial)
    (hrel : isAbsolute importSource = false) :
    rewriteImportDeclaration cwd importSource srcFile rootDir = .ok importSource :=
  rewrite_unchanged_of_foreign cwd importSource srcFile rootDir hfirst hrel

/-- Witness for C3: `@material-x/y`, whose first segment only starts with the
marker, and `a/@material/b`, which has the marker in a later segment, pass
through. -/
theorem rewrite_foreign_relative_unchanged_witness :
    rewriteImportDeclaration "/".toList "@material-x/y".toList "/root/pkg/a.scss".toList
        "/root".toList = .ok "@material-x/y".toList
      ∧ rewriteImportDeclaration "/".toList "a/@material/b".toList "/root/pkg/a.scss".toList
        "/root".toList = .ok "a/@material/b".toList :=
  ⟨rewrite_foreign_relative_unchanged _ _ _ _ (by decide) (by decide),
    rewrite_foreign_relative_unchanged _ _ _ _ (by decide) (by decide)⟩

/-- C4: when the import source is absolute after step 1 and the source file path
`f` is absolute, `rewriteImportDeclaration` returns a relative path `o`, and
resolving `o` against the directory of `f` gives the absolute candidate path of
step 2 in resolved (normalised) form:
`resolve(dirname(f), o) = resolve(candidate)`. -/
theorem rewrite_output_resolves_to_candidate (cwd s f r s1 : Str)
    (h1 : rewrittenImportSource s r = .ok s1) (habs : isAbsolute s1 = true)
    (hf : isAbsolute f = true) :
    ∃ o, rewriteImportDeclaration cwd s f r = .ok o ∧ isAbsolute o = false
      ∧ resolve cwd [dirname f, o] = resolve cwd [pathToImport s1 r] := by
  refine ⟨_, rewrite_of_step1 cwd s f r s1 h1,
    resolveImportSource_not_absolute cwd s1 f r hf, ?_⟩
  simp only [resolveImportSource, habs, if_true]
  exact resolve_dir_relative cwd _ _ (isAbsolute_dirname f hf)
    (isAbsolute_replaceFirst r s1 habs)

/-- Witness for C4: the import `@material/foo-bar/file` of `/root/pkg/a.scss`
with root `/root`, whose step-1 path is `/root/fooBar/file`. -/
theorem rewrite_output_resolves_to_candidate_witness :
    ∃ o, rewriteImportDeclaration "/".toList "@material/foo-bar/file".toList
          "/root/pkg/a.scss".toList "/root".toList = .ok o
      ∧ isAbsolute o = false
      ∧ resolve "/".toList [dirname "/root/pkg/a.scss".toList, o]
          = resolve "/".toList [pathToImport "/root/fooBar/file".toList "/root".toList] :=
  rewrite_output_resolves_to_candidate "/".toList "@material/foo-bar/file".toList
    "/root/pkg/a.scss".toList "/root".toList "/root/fooBar/file".toList
    (by decide) (by decide) (by decide)

/-- C5 (amended): on a tree whose `string_double` nodes are tokens and none of
whose double-quoted strings is the bare marker `@material`, the walk of
`transform` returns a tree in which every double-quoted string that is a direct
child of an at-rule whose first child is the at-keyword `import` (wherever that
at-rule sits in the tree) holds `rewriteImportDeclaration(value, srcFile,
rootDir)` of its original value, the rewriter being applied once; single-quoted
strings keep their value. -/
theorem walk_rewrites_import_strings (cwd srcFile rootDir : Str) (ast : Node)
    (hwf : stringsAreTokens ast = true)
    (hv : ∀ v ∈ stringValues ast, v ≠ atMaterial) :
    ∃ ast1, walkTree cwd srcFile rootDir ast = .ok ast1
      ∧ (∀ (p : List Nat) (rest : List Node) (i : Nat) (v : Str),
          nodeAt ast p = some (.branch "atrule".toList
            (.leaf "atkeyword".toList "import".toList :: rest)) →
          (Node.leaf "atkeyword".toList "import".toList :: rest)[i]?
            = some (.leaf "string_double".toList v) →
          ∃ o, rewriteImportDeclaration cwd v srcFile rootDir = .ok o
            ∧ nodeAt ast1 (p ++ [i]) = some (.leaf "string_double".toList o))
      ∧ (∀ (p : List Nat) (v : Str),
          nodeAt ast p = some (.leaf "string_single".toList v) →
          nodeAt ast1 p = some (.leaf "string_single".toList v)) := by
  obtain ⟨ast1, h⟩ := walkNode_total
    (fun v => rewriteImportDeclaration cwd v srcFile rootDir) ast false hwf
    (fun v hm => (rewrite_ok_iff cwd v srcFile rootDir).mpr (hv v hm))
  exact ⟨ast1, h,
    fun p rest i v hat hi => walkNode_import_string _ p false ast ast1 rest i v h hat hi,
    fun p v hat => walkNode_other_token _ p false ast ast1 _ v h hat (by decide)⟩

/-- Witness for C5 (amended): the tree of `@import "@material/foo-bar/file";`. -/
theorem walk_rewrites_import_strings_witness :
    ∃ ast1, walkTree "/".toList "/root/pkg/a.scss".toList "/root".toList importSheet = .ok ast1
      ∧ (∀ (p : List Nat) (rest : List Node) (i : Nat) (v : Str),
          nodeAt importSheet p = some (.branch "atrule".toList
            (.leaf "atkeyword".toList "import".toList :: rest)) →
          (Node.leaf "atkeyword".toList "import".toList :: rest)[i]?
            = some (.leaf "string_double".toList v) →
          ∃ o, rewriteImportDeclaration "/".toList v "/root/pkg/a.scss".toList
              "/root".toList = .ok o
            ∧ nodeAt ast1 (p ++ [i]) = some (.leaf "string_double".toList o))
      ∧ (∀ (p : List Nat) (v : Str),
          nodeAt importSheet p = some (.leaf "string_single".toList v) →
          nodeAt ast1 p = some (.leaf "string_single".toList v)) :=
  walk_rewrites_import_strings "/".toList "/root/pkg/a.scss".toList "/root".toList
    importSheet (by decide) (by decide)

/-- Counterexample to C5 as stated: in the tree of
`@import '@material/foo-bar/file';` the single-quoted string is a child of an
`@import` at-rule, the rewriter would turn its value into `../fooBar/file`, and
the walk returns the tree unchanged. -/
theorem walk_single_quoted_counterexample :
    walkTree "/".toList "/root/pkg/a.scss".toList "/root".toList importSheetSingle
        = .ok importSheetSingle
      ∧ nodeAt importSheetSingle [0, 2]
        = some (.leaf "string_single".toList "@material/foo-bar/file".toList)
      ∧ rewriteImportDeclaration "/".toList "@material/foo-bar/file".toList
          "/root/pkg/a.scss".toList "/root".toList = .ok "../fooBar/file".toList :=
  ⟨rfl, rfl, by decide⟩

/-- C6 (the code at the failing input): in the tree of
`@include foo("import", "@material/foo-bar/file");` the second argument is a
string of an at-rule whose keyword is `include`, and the walk replaces its value
by `../fooBar/file`, because the first child of its parent (the `arguments`
node) has the value `import`. -/
theorem walk_include_arguments_rewritten :
    walkTree "/".toList "/root/pkg/a.scss".toList "/root".toList includeSheet
        = .ok includeSheetRewritten
      ∧ nodeAt includeSheet [0, 0] = some (.leaf "atkeyword".toList "include".toList)
      ∧ nodeAt includeSheet [0, 3, 3]
        = some (.leaf "string_double".toList "@material/foo-bar/file".toList)
      ∧ nodeAt includeSheetRewritten [0, 3, 3]
        = some (.leaf "string_double".toList "../fooBar/file".toList) :=
  ⟨rfl, rfl, rfl, rfl⟩

/-- C7 (amended): when `rewriteImportDeclaration(s, f, r)` returns `o` for an
absolute source file path `f`, `o` is a relative path, and if its first segment
is not `@material` a second rewrite returns it unchanged. -/
theorem rewrite_again_noop (cwd s f r o : Str) (hf : isAbsolute f = true)
    (h : rewriteImportDeclaration cwd s f r = .ok o)
    (hfirst : (splitSlash o).head? ≠ some atMaterial) :
    isAbsolute o = false ∧ rewriteImportDeclaration cwd o f r = .ok o :=
  ⟨rewrite_not_absolute cwd s f r o hf h,
    rewrite_unchanged_of_foreign cwd o f r hfirst (rewrite_not_absolute cwd s f r o hf h)⟩

/-- Witness for C7 (amended): `@material/foo-bar/file` becomes `../fooBar/file`,
which a second run leaves alone. -/
theorem rewrite_again_noop_witness :
    isAbsolute "../fooBar/file".toList = false
      ∧ rewriteImportDeclaration "/".toList "../fooBar/file".toList
          "/root/pkg/a.scss".toList "/root".toList = .ok "../fooBar/file".toList :=
  rewrite_again_noop "/".toList "@material/foo-bar/file".toList "/root/pkg/a.scss".toList
    "/root".toList "../fooBar/file".toList (by decide) (by decide) (by decide)

/-- Counterexample to C7 as stated: with `f = /root/a.scss` and `r = /root`, the
absolute import `/@material/@material/foo` is rewritten to `@material/foo`, whose
first segment is the marker, and a second rewrite turns that into `foo`. -/
theorem rewrite_again_counterexample :
    rewriteImportDeclaration "/".toList "/@material/@material/foo".toList
        "/root/a.scss".toList "/root".toList = .ok "@material/foo".toList
    ∧ rewriteImportDeclaration "/".toList "@material/foo".toList
        "/root/a.scss".toList "/root".toList = .ok "foo".toList
    ∧ rewriteImportDeclaration "/".toList "@material/foo".toList
        "/root/a.scss".toList "/root".toList ≠ .ok "@material/foo".toList := by
  decide

/-- C8 (amended): `rewriteImportDeclaration` returns a string for every import
source except the bare marker `@material`; on that source `pathParts[1]` is
undefined and the call raises a `TypeError`, whatever the source file and root
directory. For `@material/` the module name is the empty string and step 1
yields `rootDir + '/'`. -/
theorem rewrite_returns_iff_not_bare_marker (cwd s f r : Str) :
    ((∃ o, rewriteImportDeclaration cwd s f r = .ok o) ↔ s ≠ atMaterial)
      ∧ rewriteImportDeclaration cwd atMaterial f r = .error .typeError
      ∧ rewrittenImportSource (atMaterial ++ ['/']) r = .ok (r ++ ['/']) := by
  refine ⟨rewrite_ok_iff cwd s f r, (rewrite_error_iff cwd atMaterial f r).mpr rfl, ?_⟩
  have e : splitSlash (atMaterial ++ ['/']) = [atMaterial, []] := by decide
  simp [rewrittenImportSource, e, kebabToCamel, joinSlash]

/-- Counterexample to C8 as stated: the import source `@material` makes
`rewriteImportDeclaration` raise. -/
theorem rewrite_bare_marker_counterexample :
    rewriteImportDeclaration "/".toList "@material".toList "/root/pkg/a.scss".toList
      "/root".toList = .error .typeError := by
  decide

/-- C9: when `main` processes the distinct files `pre ++ fk :: post` that the
glob returned, every file of `pre` transforms successfully and the
transformation of `fk` raises `e` (a parse error or an error of the rewriter),
the run ends with the uncaught exception `e`; afterwards every file of `pre`
holds its rewritten text, `fk` and every file of `post` hold their original
text, and the files written are exactly those of `pre`. -/
theorem main_stops_at_first_failure (env : Env) (argv : List Str) (fs : FileSystem)
    (arg fk : Str) (pre post : List Str) (e : JsError)
    (harg : argv.get? 2 = some arg)
    (hglob : env.glob fs (resolve env.cwd [arg] ++ "/**/*.scss".toList) = pre ++ fk :: post)
    (hnodup : (pre ++ fk :: post).Nodup)
    (hpre : ∀ f ∈ pre, ∃ src out, fs f = some src
      ∧ transformText env src f (resolve env.cwd [arg]) = .ok out)
    (hfail : ∃ src, fs fk = some src
      ∧ transformText env src fk (resolve env.cwd [arg]) = .error e) :
    (main env argv fs).2.2 = .threw e
      ∧ (∀ f ∈ pre, ∃ src out, fs f = some src
          ∧ transformText env src f (resolve env.cwd [arg]) = .ok out
          ∧ (main env argv fs).1 f = some out)
      ∧ (main env argv fs).1 fk = fs fk
      ∧ (∀ f ∈ post, (main env argv fs).1 f = fs f)
      ∧ (∀ p, Event.wrote p ∈ (main env argv fs).2.1 ↔ p ∈ pre) := by
  obtain ⟨r1, r2, r3, r4⟩ := transformAll_first_failure env (resolve env.cwd [arg]) fk post e
    pre fs hnodup hpre hfail
  have hsplit := List.nodup_append.mp hnodup
  have hfk : fk ∉ pre := fun hm => hsplit.2.2 hm (by simp)
  have hpost : ∀ f ∈ post, f ∉ pre := fun f hf hm => hsplit.2.2 hm (by simp [hf])
  rw [main_with_root env argv fs arg harg, hglob]
  refine ⟨?_, r2, r3 fk hfk, fun f hf => r3 f (hpost f hf), ?_⟩
  · dsimp only
    rw [r1]
  · intro p
    show Event.wrote p ∈ _ :: _ ↔ _
    simp only [List.mem_cons, r4 p]
    simp

/-- Witness for C9: with the three stylesheets of `toyFiles`, `/root/a.scss` is
rewritten, `/root/b.scss` fails to parse, and `/root/c.scss` is not reached. -/
theorem main_stops_at_first_failure_witness :
    (main toyEnv ["node".toList, "script".toList, "/root".toList] toyFiles).2.2
        = .threw .parseError
      ∧ (∀ f ∈ ["/root/a.scss".toList], ∃ src out, toyFiles f = some src
          ∧ transformText toyEnv src f (resolve toyEnv.cwd ["/root".toList]) = .ok out
          ∧ (main toyEnv ["node".toList, "script".toList, "/root".toList] toyFiles).1 f
            = some out)
      ∧ (main toyEnv ["node".toList, "script".toList, "/root".toList] toyFiles).1
          "/root/b.scss".toList = toyFiles "/root/b.scss".toList
      ∧ (∀ f ∈ ["/root/c.scss".toList],
          (main toyEnv ["node".toList, "script".toList, "/root".toList] toyFiles).1 f
            = toyFiles f)
      ∧ (∀ p, Event.wrote p
            ∈ (main toyEnv ["node".toList, "script".toList, "/root".toList] toyFiles).2.1
          ↔ p ∈ ["/root/a.scss".toList]) :=
  main_stops_at_first_failure toyEnv ["node".toList, "script".toList, "/root".toList]
    toyFiles "/root".toList "/root/b.scss".toList ["/root/a.scss".toList]
    ["/root/c.scss".toList] .parseError rfl rfl (by decide)
    (by
      intro f hf
      rw [List.mem_singleton] at hf
      subst hf
      exact ⟨"@material/foo-bar/file".toList, "fooBar/file".toList, rfl, rfl⟩)
    ⟨"\x7d".toList, rfl, rfl⟩

/-- C10: for an argument vector with fewer than 3 entries `main` reports
`Missing root directory path` on the error stream and exits with code 1, and
that is its only effect: nothing is globbed, read or written and the file
system is unchanged; for an argument vector with at least 3 entries `main`
neither exits through `process.exit` nor writes to the error stream. -/
theorem main_missing_root_directory (env : Env) (argv : List Str) (fs : FileSystem) :
    (argv.length < 3 →
        main env argv fs
          = (fs, [.stderr "Missing root directory path".toList], .exited 1))
      ∧ (3 ≤ argv.length →
        (∀ code, (main env argv fs).2.2 ≠ .exited code)
          ∧ ∀ msg, Event.stderr msg ∉ (main env argv fs).2.1) :=
  ⟨main_short_argv env argv fs, main_long_argv env argv fs⟩

/-- Witness for C10: `node script` stops with the message, `node script /root`
does not. -/
theorem main_missing_root_directory_witness :
    main toyEnv ["node".toList, "script".toList] toyFiles
        = (toyFiles, [.stderr "Missing root directory path".toList], .exited 1)
      ∧ ((∀ code, (main toyEnv ["node".toList, "script".toList, "/root".toList]
            toyFiles).2.2 ≠ .exited code)
        ∧ ∀ msg, Event.stderr msg
          ∉ (main toyEnv ["node".toList, "script".toList, "/root".toList] toyFiles).2.1) :=
  ⟨(main_missing_root_directory toyEnv ["node".toList, "script".toList] toyFiles).1
      (by decide),
    (main_missing_root_directory toyEnv ["node".toList, "script".toList, "/root".toList]
      toyFiles).2 (by decide)⟩

/-- C11 (the code at the failing input): the file header promises that
`@material/$PKG/...` becomes `mdc-$PKG/...`; for the package `foo` the import
`@material/foo/bar` of `/root/pkg/a.scss` with root `/root` is rewritten to
`../foo/bar`, which does not begin with `mdc-foo/`. -/
theorem header_mdc_form_absent :
    rewriteImportDeclaration "/".toList "@material/foo/bar".toList
        "/root/pkg/a.scss".toList "/root".toList = .ok "../foo/bar".toList
      ∧ ¬ ("mdc-foo/".toList <+: "../foo/bar".toList) := by
  decide

/-- C12 (the code at the failing input): the file header promises that the
third-party import `third-party-lib` becomes
`goog:mdc.thirdparty.thirdPartyLib`; `rewriteImportDeclaration` returns it
unchanged, whatever the source file and the root directory. -/
theorem header_goog_form_absent (cwd f r : Str) :
    rewriteImportDeclaration cwd "third-party-lib".toList f r
        = .ok "third-party-lib".toList
      ∧ "third-party-lib".toList ≠ "goog:mdc.thirdparty.thirdPartyLib".toList :=
  ⟨rewrite_unchanged_of_foreign cwd _ f r (by decide) (by decide), by decide⟩

/-- C13 (amended): the candidate path of line 120 is the import source with the
first occurrence of the text `@material` replaced by `rootDir` (for a `rootDir`
without `$`, which `replace` would expand as a pattern), whether or not that
occurrence is a whole segment; a path that does not contain the text is its
own candidate; and when exactly one segment equals `@material` and no other
segment contains the text, the candidate is the path with that segment
replaced by `rootDir` and every other segment unchanged. This holds for
every import source, in particular for one that is absolute after step 1. -/
theorem candidate_replaces_first_occurrence (s1 r : Str) :
    (¬ atMaterial <:+: s1 → pathToImport s1 r = s1)
      ∧ ('$' ∉ r → ∀ b a : Str, s1 = b ++ atMaterial ++ a →
          ¬ atMaterial <:+: b ++ atMaterial.dropLast →
          pathToImport s1 r = b ++ r ++ a)
      ∧ ('$' ∉ r → ∀ pre post : List Str, s1 = joinSlash (pre ++ atMaterial :: post) →
          (∀ x ∈ pre ++ post, '/' ∉ x) → (∀ x ∈ pre ++ post, ¬ atMaterial <:+: x) →
          pathToImport s1 r = joinSlash (pre ++ r :: post)
            ∧ pathToImport s1 r = candidateBySegments s1 r) := by
  refine ⟨fun h => replaceFirst_absent _ _ _ h, ?_, ?_⟩
  · intro hr b a e hfirst
    rw [e]
    exact replaceFirst_first atMaterial r b a (by decide) hr hfirst
  · intro hr pre post e hslash hother
    rw [e]
    have h1 := pathToImport_segment r pre post hr (fun x hx => hother x (by simp [hx]))
    exact ⟨h1, h1.trans (candidateBySegments_single r pre post hslash hother).symm⟩

/-- Witness for C13 (amended): `/a/b` is its own candidate, and in
`/@material/foo` the marker segment is replaced by the root `/root`. -/
theorem candidate_replaces_first_occurrence_witness :
    pathToImport "/a/b".toList "/root".toList = "/a/b".toList
      ∧ pathToImport "/@material/foo".toList "/root".toList = "//root/foo".toList
      ∧ (pathToImport "/@material/foo".toList "/root".toList
          = joinSlash ["".toList, "/root".toList, "foo".toList]
        ∧ pathToImport "/@material/foo".toList "/root".toList
          = candidateBySegments "/@material/foo".toList "/root".toList) :=
  ⟨(candidate_replaces_first_occurrence "/a/b".toList "/root".toList).1 (by decide),
    (candidate_replaces_first_occurrence "/@material/foo".toList "/root".toList).2.1
      (by decide) "/".toList "/foo".toList (by decide) (by decide),
    (candidate_replaces_first_occurrence "/@material/foo".toList "/root".toList).2.2
      (by decide) ["".toList] ["foo".toList] (by decide) (by decide) (by decide)⟩

/-- Counterexample to C13 as stated: `/a/x@material-y/b` is absolute after step 1
and none of its segments equals `@material`, so it should be its own candidate;
line 120 turns it into `/a/x/root-y/b`. -/
theorem candidate_segment_counterexample :
    rewrittenImportSource "/a/x@material-y/b".toList "/root".toList
        = .ok "/a/x@material-y/b".toList
      ∧ isAbsolute "/a/x@material-y/b".toList = true
      ∧ atMaterial ∉ splitSlash "/a/x@material-y/b".toList
      ∧ candidateBySegments "/a/x@material-y/b".toList "/root".toList
        = "/a/x@material-y/b".toList
      ∧ pathToImport "/a/x@material-y/b".toList "/root".toList = "/a/x/root-y/b".toList
      ∧ pathToImport "/a/x@material-y/b".toList "/root".toList
        ≠ "/a/x@material-y/b".toList := by
  decide

/-- C14 (amended): for an absolute root directory `r` and an internal import
`@material/<m>/<rest...>` with kebab-case `m`: when neither `r` nor any remaining
segment contains the text `@material`, the substitution of step 2 changes
nothing and the output is the path of `r/<camelCase(m)>/<rest...>` relative to
the directory of the source file; when the step-1 path does contain the text
and `r` contains no `$`, only its first occurrence (as a substring) is replaced
by `r`, and the output is the relative path of the result. -/
theorem rewrite_internal_substitution (cwd r f : Str) (ws rest : List Str)
    (hr : isAbsolute r = true) (hws : KebabWords ws) (hrest : ∀ s ∈ rest, '/' ∉ s) :
    ((¬ atMaterial <:+: r ∧ ∀ s ∈ rest, ¬ atMaterial <:+: s) →
        pathToImport (joinSlash ((r ++ '/' :: camelCase ws) :: rest)) r
          = joinSlash ((r ++ '/' :: camelCase ws) :: rest)
        ∧ rewriteImportDeclaration cwd (joinSlash (atMaterial :: joinHyphen ws :: rest)) f r
          = .ok (relative cwd (dirname f) (joinSlash ((r ++ '/' :: camelCase ws) :: rest))))
      ∧ ('$' ∉ r → ∀ b a : Str,
          joinSlash ((r ++ '/' :: camelCase ws) :: rest) = b ++ atMaterial ++ a →
          ¬ atMaterial <:+: b ++ atMaterial.dropLast →
          pathToImport (joinSlash ((r ++ '/' :: camelCase ws) :: rest)) r = b ++ r ++ a
          ∧ rewriteImportDeclaration cwd (joinSlash (atMaterial :: joinHyphen ws :: rest)) f r
            = .ok (relative cwd (dirname f) (b ++ r ++ a))) := by
  have habs : isAbsolute (joinSlash ((r ++ '/' :: camelCase ws) :: rest)) = true :=
    isAbsolute_joinSlash_cons _ _ (isAbsolute_append r _ hr)
  have hstep := rewrittenImportSource_internal r ws rest hws hrest
  constructor
  · rintro ⟨h1, h2⟩
    exact ⟨replaceFirst_absent _ _ _ (atMaterial_not_infix_step1 r ws rest hws h1 h2),
      rewrite_internal_clean cwd r f ws rest hr hws hrest h1 h2⟩
  · intro hd b a e hfirst
    have hc : pathToImport (joinSlash ((r ++ '/' :: camelCase ws) :: rest)) r
        = b ++ r ++ a := by
      rw [e]
      exact replaceFirst_first atMaterial r b a (by decide) hd hfirst
    refine ⟨hc, ?_⟩
    rw [rewrite_of_step1 cwd _ f r _ hstep]
    simp only [resolveImportSource, habs, if_true, hc]

/-- Witness for C14 (amended): `@material/foo-bar/file` with root `/root` is not
touched by the substitution, and in the step-1 path `/root/fooBar/@material/x`
of `@material/foo-bar/@material/x` the marker is replaced by `/root`. -/
theorem rewrite_internal_substitution_witness :
    (pathToImport "/root/fooBar/file".toList "/root".toList = "/root/fooBar/file".toList
        ∧ rewriteImportDeclaration "/".toList "@material/foo-bar/file".toList
            "/root/pkg/a.scss".toList "/root".toList = .ok "../fooBar/file".toList)
      ∧ (pathToImport "/root/fooBar/@material/x".toList "/root".toList
          = "/root/fooBar//root/x".toList
        ∧ rewriteImportDeclaration "/".toList "@material/foo-bar/@material/x".toList
            "/root/pkg/a.scss".toList "/root".toList = .ok "../fooBar/root/x".toList) :=
  ⟨(rewrite_internal_substitution "/".toList "/root".toList "/root/pkg/a.scss".toList
      ["foo".toList, "bar".toList] ["file".toList] (by decide)
      (by unfold KebabWords; decide) (by decide)).1 ⟨by decide, by decide⟩,
    (rewrite_internal_substitution "/".toList "/root".toList "/root/pkg/a.scss".toList
      ["foo".toList, "bar".toList] ["@material".toList, "x".toList] (by decide)
      (by unfold KebabWords; decide) (by decide)).2 (by decide)
      "/root/fooBar/".toList "/x".toList (by decide) (by decide)⟩

/-- Counterexample to C14 as stated: with the absolute root directory `/$&` the
step-1 path of `@material/foo/@material` is `/$&/foo/@material`; its only
occurrence of the marker is replaced by `/@material` (the replacement text
`/$&` with `$&` expanded to the matched text), not by `/$&`. -/
theorem substitution_pattern_counterexample :
    isAbsolute "/$&".toList = true
      ∧ rewrittenImportSource "@material/foo/@material".toList "/$&".toList
        = .ok "/$&/foo/@material".toList
      ∧ "/$&/foo/@material".toList = "/$&/foo/".toList ++ atMaterial ++ []
      ∧ ¬ atMaterial <:+: "/$&/foo/".toList ++ atMaterial.dropLast
      ∧ pathToImport "/$&/foo/@material".toList "/$&".toList = "/$&/foo//@material".toList
      ∧ pathToImport "/$&/foo/@material".toList "/$&".toList
        ≠ "/$&/foo/".toList ++ "/$&".toList ++ [] := by
  decide

/-- C15: whenever `rewriteImportDeclaration` returns a value, that value is not
an absolute path: either the source after step 1 is not absolute and is
returned as it is, or the value is the result of `path.relative`, which never
begins with `/`. -/
theorem rewrite_output_never_absolute (cwd s f r o : Str)
    (h : rewriteImportDeclaration cwd s f r = .ok o) :
    isAbsolute o = false
      ∧ ∃ s1, rewrittenImportSource s r = .ok s1
        ∧ ((isAbsolute s1 = false ∧ o = s1)
          ∨ (isAbsolute s1 = true ∧ o = relative cwd (dirname f) (pathToImport s1 r))) := by
  rcases rewrittenImportSource_ok_or_typeError s r with ⟨s1, h1⟩ | h1
  · rw [rewrite_of_step1 cwd s f r s1 h1] at h
    cases h
    rcases resolveImportSource_cases cwd s1 f r with ⟨ha, he⟩ | ⟨ha, he⟩
    · exact ⟨by rw [he]; exact ha, s1, h1, Or.inl ⟨ha, he⟩⟩
    · exact ⟨by rw [he]; exact relative_not_absolute _ _ _, s1, h1, Or.inr ⟨ha, he⟩⟩
  · simp [rewriteImportDeclaration, h1] at h

/-- Witness for C15: the absolute import `/root/x/y`, seen from the relative
source file `pkg/a.scss` in the working directory `/root`, is returned as
`../x/y`. -/
theorem rewrite_output_never_absolute_witness :
    isAbsolute "../x/y".toList = false
      ∧ ∃ s1, rewrittenImportSource "/root/x/y".toList "/root".toList = .ok s1
        ∧ ((isAbsolute s1 = false ∧ "../x/y".toList = s1)
          ∨ (isAbsolute s1 = true
            ∧ "../x/y".toList = relative "/root".toList (dirname "pkg/a.scss".toList)
                (pathToImport s1 "/root".toList))) :=
  rewrite_output_never_absolute "/root".toList "/root/x/y".toList "pkg/a.scss".toList
    "/root".toList "../x/y".toList (by decide)

/-- C16: the module-name conversion of line 111 removes exactly the hyphens that
are immediately followed by a lowercase ASCII letter, puts that letter in upper
case and changes no other character; the converted segment contains a hyphen
if and only if the segment contains a hyphen that is not immediately followed
by a lowercase ASCII letter (a hyphen at the end, or before any other
character). `foo-2x` and `foo-` stay as they are and `a--b` becomes `a-B`. -/
theorem module_name_conversion_hyphens (m : Str) :
    kebabToCamel m = convertBySpec none m
      ∧ ('-' ∈ kebabToCamel m ↔
          ∃ pre post, m = pre ++ '-' :: post ∧ (post.head?.map isLowerAZ) ≠ some true)
      ∧ kebabToCamel "foo-2x".toList = "foo-2x".toList
      ∧ kebabToCamel "a--b".toList = "a-B".toList
      ∧ kebabToCamel "foo-".toList = "foo-".toList :=
  ⟨kebabToCamel_eq_convertBySpec m none (fun h => by cases h), kebabToCamel_hyphen_iff m,
    by decide, by decide, by decide⟩

end GssRewrite
